import Mathlib

/-!
# build_db: two-pass grouping of tweets by author

A shallow embedding of `src/build_db/main.go` (`usernameCounts`,
`tweetsPerUser` and the sort-and-emit part of `main`), followed by the
properties proved about it.

Modelling conventions.

* A Go `string` / `[]byte` is the list of its bytes (`List Nat`); `len` is the
  length of that list and comparison is byte-wise lexicographic.
* A Go `map[string]V` is an association list with at most one entry per key.
  Indexing a key that is absent yields the zero value of `V`.
* `csv.Reader.Read` is an external collaborator: the reader is the list of
  results it hands out, one per call, followed by `io.EOF`.
* A Go function returning `(value, error)` returns `Result.ret value err`, with
  `none` standing for `nil`; a run-time panic (index or slice bounds out of
  range) is `Result.panic`.
* `int` values are unbounded integers: a count never exceeds the number of
  rows read, and the offsets never exceed the number of bytes read.
-/

namespace BuildDb

/-- A Go string, as the list of its bytes. -/
abbrev GoString := List Nat

/-- A Go byte slice. -/
abbrev Bytes := List Nat

/-- One CSV record: the fields returned by `reader.Read()`. -/
abbrev Row := List GoString

/-- A Go `error` value, identified by its message. -/
abbrev GoError := String

/-- A Go `map[string]V`: entries in the order a `range` loop visits them. -/
abbrev GoMap (V : Type) := List (GoString × V)

/-- The outcome of one call of `reader.Read()` before `io.EOF`. -/
inductive ReadResult where
  | row (r : Row)
  | fail (e : GoError)
  deriving DecidableEq, Repr

/-- What a Go function of type `(T, error)` does: return a pair, or panic. -/
inductive Result (α : Type) where
  | ret (val : Option α) (err : Option GoError)
  | panic
  deriving DecidableEq, Repr

/-- The record type `tweetures.Record` sent to the writer. -/
structure Record where
  User : Bytes
  Body : Bytes
  deriving DecidableEq, Repr

/-- Comma-ok lookup `v, ok := m[k]`. -/
def mapGet {V : Type} : GoMap V → GoString → Option V
  | [], _ => none
  | (k', v) :: rest, k => if k' = k then some v else mapGet rest k

/-- Assignment `m[k] = v`: replaces the entry of `k`, or adds one. -/
def mapSet {V : Type} : GoMap V → GoString → V → GoMap V
  | [], k, v => [(k, v)]
  | (k', v') :: rest, k, v =>
    if k' = k then (k, v) :: rest else (k', v') :: mapSet rest k v

/-- The keys of a map, in the order `for k := range m` visits them. -/
def mapKeys {V : Type} (m : GoMap V) : List GoString := m.map Prod.fst

/-- Index expression `counts[k]` on a `map[string]int`: zero when absent. -/
def countAt (counts : GoMap Int) (k : GoString) : Int := (mapGet counts k).getD 0

/-- Index expression `m[k]` on a map of slices: the nil slice when absent. -/
def sliceAt {V : Type} (m : GoMap (List V)) (k : GoString) : List V := (mapGet m k).getD []

/-- The message of `errors.New` in `usernameCounts`. -/
def columnsError : GoError := "expected at least 3 columns"

/-- The loop of `usernameCounts` (main.go 89-100), with `counts` as loop state. -/
def usernameCountsLoop : List ReadResult → GoMap Int → Result (GoMap Int)
  | [], counts => .ret (some counts) none
  | .fail e :: _, _ => .ret none (some e)
  | .row row :: rest, counts =>
    if row.length < 3 then .ret none (some columnsError)
    else
      match row[1]? with
      | none => .panic
      | some user => usernameCountsLoop rest (mapSet counts user (countAt counts user + 1))

/-- Function `usernameCounts` (main.go 86-102). -/
def usernameCounts (reader : List ReadResult) : Result (GoMap Int) :=
  usernameCountsLoop reader []

/-- How the first loop of `tweetsPerUser` ends: at `io.EOF` with the final
`indices` and buffer contents, by returning a read error, or by a panic. -/
inductive GroupExit where
  | eof (indices : GoMap (List Nat)) (buffer : Bytes)
  | readError (e : GoError)
  | panic
  deriving DecidableEq, Repr

/-- The first loop of `tweetsPerUser` (main.go 114-127): the loop state is the
map `indices` and the contents of `buffer`. There is no column-count check:
`row[1]` panics on a row with fewer than 2 fields. -/
def groupLoop (counts : GoMap Int) : List ReadResult → GoMap (List Nat) → Bytes → GroupExit
  | [], indices, buffer => .eof indices buffer
  | .fail e :: _, _, _ => .readError e
  | .row row :: rest, indices, buffer =>
    match row[1]? with
    | none => .panic
    | some user =>
      if countAt counts user < 2 then groupLoop counts rest indices buffer
      else
        match row[row.length - 1]? with
        | none => .panic
        | some msg =>
          groupLoop counts rest
            (mapSet indices user
              (sliceAt indices user ++ [buffer.length, buffer.length + msg.length]))
            (buffer ++ msg)

/-- Slice expression `fullBytes[lo:hi]`: panics (`none`) unless
`lo ≤ hi ≤ len(fullBytes)`. The capacity is taken to be the length. -/
def goSlice (fullBytes : Bytes) (lo hi : Nat) : Option Bytes :=
  if lo ≤ hi ∧ hi ≤ fullBytes.length then some ((fullBytes.drop lo).take (hi - lo)) else none

/-- The inner loop of `tweetsPerUser` (main.go 133-135) from position `i` on,
where the argument is `is[i:]` and `strs` is the slice built so far: it reads
`is[i]` and `is[i+1]` and goes on with `i + 2`. Reading `is[i+1]` past the end
panics (`none`). -/
def sliceViews (fullBytes : Bytes) : List Nat → List Bytes → Option (List Bytes)
  | [], strs => some strs
  | [_], _ => none
  | lo :: hi :: rest, strs =>
    match goSlice fullBytes lo hi with
    | none => none
    | some tweet => sliceViews fullBytes rest (strs ++ [tweet])

/-- The outer loop of `tweetsPerUser` (main.go 131-137) over the entries of
`indices` in the order the `range` visits them; `none` is a panic. -/
def sliceLoop (fullBytes : Bytes) :
    List (GoString × List Nat) → GoMap (List Bytes) → Option (GoMap (List Bytes))
  | [], res => some res
  | (user, is) :: rest, res =>
    match sliceViews fullBytes is [] with
    | none => none
    | some strs => sliceLoop fullBytes rest (mapSet res user strs)

/-- Function `tweetsPerUser` (main.go 104-139). -/
def tweetsPerUser (reader : List ReadResult) (counts : GoMap Int) :
    Result (GoMap (List Bytes)) :=
  match groupLoop counts reader [] [] with
  | .panic => .panic
  | .readError e => .ret none (some e)
  | .eof indices fullBytes =>
    match sliceLoop fullBytes indices [] with
    | none => .panic
    | some res => .ret (some res) none

/-- Library function `sort.Strings`: the strings in ascending byte-wise order.
The order on byte lists is the lexicographic one (a proper prefix comes first),
which is how Go compares strings; equal strings are indistinguishable, so the
ascending arrangement is unique and the sorting algorithm does not matter. -/
def sortStrings (usernames : List GoString) : List GoString :=
  usernames.insertionSort (· ≤ ·)

/-- The producer loop of `main` (main.go 71-79): the records sent on the
channel, in sending order. -/
def emitLoop (mapping : GoMap (List Bytes)) : List GoString → List Record
  | [] => []
  | user :: rest => (sliceAt mapping user).map (fun tweet => ⟨user, tweet⟩) ++ emitLoop mapping rest

/-- The usernames of `main` (main.go 54-58): the keys of `mapping` as the
`range` visits them, then sorted. -/
def sortedUsernames (mapping : GoMap (List Bytes)) : List GoString :=
  sortStrings (mapKeys mapping)

/-- The records the run sends (main.go 39-58 and 69-80): `usernameCounts`,
then `tweetsPerUser` on the same file with the returned counts, then the
sorted usernames and the producer loop. It is `none` when a pass returns an
error or panics, so that the producer loop is never reached. -/
def emittedRecords (file : List ReadResult) : Option (List Record) :=
  match usernameCounts file with
  | .ret counts none =>
    match tweetsPerUser file (counts.getD []) with
    | .ret mapping none => some (emitLoop (mapping.getD []) (sortedUsernames (mapping.getD [])))
    | _ => none
  | _ => none

/-- The file operations of `main` that can fail: `os.Open`, `f.Seek`, `os.Create`. -/
structure Env where
  openErr : Option GoError
  seekErr : Option GoError
  createErr : Option GoError
  deriving DecidableEq, Repr

/-- The observable steps of `main`, in program order. -/
inductive Event where
  | countPass
  | groupPass
  | createOutput
  | send (r : Record)
  | closeRecords
  | die (e : GoError)
  | panic
  deriving DecidableEq, Repr

/-- Function `main` (main.go 31-83) as the trace of its steps: the call of
`usernameCounts`, the call of `tweetsPerUser`, `os.Create`, every send on
`records`, its close, and `essentials.Die`. The writer is taken to receive
every record that is sent. -/
def main (env : Env) (file : List ReadResult) : List Event :=
  match env.openErr with
  | some e => [.die e]
  | none =>
    .countPass ::
    match usernameCounts file with
    | .panic => [.panic]
    | .ret _ (some e) => [.die e]
    | .ret counts none =>
      match env.seekErr with
      | some e => [.die e]
      | none =>
        .groupPass ::
        match tweetsPerUser file (counts.getD []) with
        | .panic => [.panic]
        | .ret _ (some e) => [.die e]
        | .ret mapping none =>
          match env.createErr with
          | some e => [.die e]
          | none =>
            .createOutput ::
              ((emitLoop (mapping.getD []) (sortedUsernames (mapping.getD []))).map .send
                ++ [.closeRecords])

/-! ## Reference notions used in the statements -/

/-- The rows whose field at index 1 is `k`, in input order. -/
def rowsOfKey (rows : List Row) (k : GoString) : List Row :=
  rows.filter (fun r => decide (r[1]? = some k))

/-- The number of rows whose field at index 1 is `k`. -/
def occurrences (rows : List Row) (k : GoString) : Nat := (rowsOfKey rows k).length

/-- The last fields of the rows whose field at index 1 is `k`, in input order. -/
def payloadsOf (rows : List Row) (k : GoString) : List Bytes :=
  (rowsOfKey rows k).filterMap List.getLast?

/-- The rows whose key (field 1) occurs in at least two rows of the input. -/
def retainedRows (rows : List Row) : List Row :=
  rows.filter fun r =>
    match r[1]? with
    | some k => decide (2 ≤ occurrences rows k)
    | none => false

/-- The pair (field 1, last field) of a row, as a record. -/
def recordOf (r : Row) : Option Record :=
  match r[1]?, r.getLast? with
  | some k, some body => some ⟨k, body⟩
  | _, _ => none

/-! ## Map iteration order -/

/-- Function `tweetsPerUser` (main.go 104-139) when `for user, is := range indices`
visits the entries of `indices` in the order `visit indices`. Go leaves the
order of a `range` over a map unspecified; `tweetsPerUser` is the case where
`visit` changes nothing. -/
def tweetsPerUserIn (visit : GoMap (List Nat) → GoMap (List Nat))
    (reader : List ReadResult) (counts : GoMap Int) : Result (GoMap (List Bytes)) :=
  match groupLoop counts reader [] [] with
  | .panic => .panic
  | .readError e => .ret none (some e)
  | .eof indices fullBytes =>
    match sliceLoop fullBytes (visit indices) [] with
    | none => .panic
    | some res => .ret (some res) none

/-- The records the run sends (main.go 39-58 and 69-80) when the `range` over
`indices` visits its entries in the order `visit indices` and the `range` over
`mapping` visits its keys in the order `visitKeys` gives. -/
def emittedRecordsIn (visit : GoMap (List Nat) → GoMap (List Nat))
    (visitKeys : List GoString → List GoString) (file : List ReadResult) :
    Option (List Record) :=
  match usernameCounts file with
  | .ret counts none =>
    match tweetsPerUserIn visit file (counts.getD []) with
    | .ret mapping none =>
      some (emitLoop (mapping.getD []) (sortStrings (visitKeys (mapKeys (mapping.getD [])))))
    | _ => none
  | _ => none

/-! ## Reference notions of the later statements -/

/-- The reference sequence of the emitter as the specification words it: the
keys of the mapping in ascending order without repetition and, for each key,
one record per view of the key in stored order. -/
def referenceRecords (m : GoMap (List Bytes)) : List Record :=
  ((mapKeys m).toFinset.sort (· ≤ ·)).flatMap fun key =>
    (sliceAt m key).map fun view => ⟨key, view⟩

/-- The bytes of `alice`. -/
def alice : GoString := [97, 108, 105, 99, 101]

/-- The bytes of `bob`. -/
def bob : GoString := [98, 111, 98]

/-- The bytes of `hi`. -/
def hi : Bytes := [104, 105]

/-- The bytes of `yo`. -/
def yo : Bytes := [121, 111]

/-- The bytes of `bye`. -/
def bye : Bytes := [98, 121, 101]

/-- The last fields of the rows whose key has a count of at least 2, in input order. -/
def keptPayloads (counts : GoMap Int) (rows : List Row) : List Bytes :=
  (rows.filter fun r =>
    match r[1]? with
    | some k => decide (2 ≤ countAt counts k)
    | none => false).filterMap List.getLast?

/-- The first loop of `tweetsPerUser` (main.go 114-127) with one ghost variable:
`log` collects, in the order they are recorded, the user and the
`(start, end)` pair that line 125 appends to `indices[user]`. Everything else
is `groupLoop`; `none` stands for a read error or a panic. -/
def groupLoopLog (counts : GoMap Int) :
    List ReadResult → GoMap (List Nat) → Bytes → List (GoString × Nat × Nat) →
      Option (GoMap (List Nat) × Bytes × List (GoString × Nat × Nat))
  | [], indices, buffer, log => some (indices, buffer, log)
  | .fail _ :: _, _, _, _ => none
  | .row row :: rest, indices, buffer, log =>
    match row[1]? with
    | none => none
    | some user =>
      if countAt counts user < 2 then groupLoopLog counts rest indices buffer log
      else
        match row[row.length - 1]? with
        | none => none
        | some msg =>
          groupLoopLog counts rest
            (mapSet indices user
              (sliceAt indices user ++ [buffer.length, buffer.length + msg.length]))
            (buffer ++ msg)
            (log ++ [(user, buffer.length, buffer.length + msg.length)])

/-- The pairs logged for one user, flattened the way `indices[user]` stores them. -/
def pairsOfKey (log : List (GoString × Nat × Nat)) (k : GoString) : List Nat :=
  (log.filter fun e => decide (e.1 = k)).flatMap fun e => [e.2.1, e.2.2]

/-- The pairs that consecutive payloads get when the first one starts at `start`. -/
def pairsFrom (start : Nat) : List Bytes → List (Nat × Nat)
  | [] => []
  | msg :: rest => (start, start + msg.length) :: pairsFrom (start + msg.length) rest

/-- Every index `i` read by the slicing loop has an `is[i+1]`, and
`is[i] ≤ is[i+1] ≤ n`. -/
def pairsInRange (n : Nat) : List Nat → Prop
  | [] => True
  | [_] => False
  | lo :: hi :: rest => lo ≤ hi ∧ hi ≤ n ∧ pairsInRange n rest

/-! ## Maps -/

theorem mapGet_mapSet_self {V : Type} (m : GoMap V) (k : GoString) (v : V) :
    mapGet (mapSet m k v) k = some v := by
  induction m with
  | nil => simp [mapSet, mapGet]
  | cons p rest ih =>
    obtain ⟨k', v'⟩ := p
    by_cases h : k' = k
    · simp [mapSet, mapGet, h]
    · simp [mapSet, mapGet, h, ih]

theorem mapGet_mapSet_other {V : Type} (m : GoMap V) (k j : GoString) (v : V) (h : k ≠ j) :
    mapGet (mapSet m k v) j = mapGet m j := by
  induction m with
  | nil => simp [mapSet, mapGet, h]
  | cons p rest ih =>
    obtain ⟨k', v'⟩ := p
    by_cases hk : k' = k
    · subst hk
      simp [mapSet, mapGet, h]
    · by_cases hj : k' = j
      · subst hj
        simp [mapSet, mapGet, hk]
      · simp [mapSet, mapGet, hk, hj, ih]

theorem mapGet_eq_none_iff {V : Type} (m : GoMap V) (k : GoString) :
    mapGet m k = none ↔ k ∉ mapKeys m := by
  induction m with
  | nil => simp [mapGet, mapKeys]
  | cons p rest ih =>
    obtain ⟨k', v'⟩ := p
    by_cases h : k' = k
    · simp [mapGet, mapKeys, h]
    · have h' : ¬ k = k' := fun e => h e.symm
      simpa [mapGet, mapKeys, h, h'] using ih

theorem mem_mapKeys_iff {V : Type} (m : GoMap V) (k : GoString) :
    k ∈ mapKeys m ↔ ∃ v, mapGet m k = some v := by
  have h := mapGet_eq_none_iff m k
  cases hg : mapGet m k with
  | none => simpa [hg] using h
  | some v =>
    rw [hg] at h
    simp at h
    simpa using h

theorem mem_mapKeys_mapSet {V : Type} (m : GoMap V) (k j : GoString) (v : V) :
    j ∈ mapKeys (mapSet m k v) ↔ j = k ∨ j ∈ mapKeys m := by
  rw [mem_mapKeys_iff, mem_mapKeys_iff]
  by_cases h : k = j
  · subst h
    simp [mapGet_mapSet_self]
  · have h' : ¬ j = k := fun e => h e.symm
    simp [mapGet_mapSet_other m k j v h, h']

theorem nodup_mapKeys_mapSet {V : Type} (m : GoMap V) (k : GoString) (v : V)
    (h : (mapKeys m).Nodup) : (mapKeys (mapSet m k v)).Nodup := by
  induction m with
  | nil => simp [mapSet, mapKeys]
  | cons p rest ih =>
    obtain ⟨k', v'⟩ := p
    have hk' : k' ∉ mapKeys rest := by
      have := h
      simp only [mapKeys, List.map_cons, List.nodup_cons] at this
      exact this.1
    have hrest : (mapKeys rest).Nodup := by
      have := h
      simp only [mapKeys, List.map_cons, List.nodup_cons] at this
      exact this.2
    by_cases hk : k' = k
    · subst hk
      simpa [mapSet, mapKeys] using h
    · have hmem : k' ∉ mapKeys (mapSet rest k v) := by
        rw [mem_mapKeys_mapSet]
        simp [hk, hk']
      have := ih hrest
      simp only [mapSet, hk, if_false, mapKeys, List.map_cons, List.nodup_cons]
      exact ⟨hmem, this⟩

/-! ## The counting pass -/

theorem rowsOfKey_cons (r : Row) (rows : List Row) (k : GoString) :
    rowsOfKey (r :: rows) k = if r[1]? = some k then r :: rowsOfKey rows k else rowsOfKey rows k := by
  unfold rowsOfKey
  by_cases h : r[1]? = some k <;> simp [List.filter_cons, h]

theorem occurrences_cons (r : Row) (rows : List Row) (k : GoString) :
    occurrences (r :: rows) k = (if r[1]? = some k then 1 else 0) + occurrences rows k := by
  unfold occurrences
  rw [rowsOfKey_cons]
  by_cases h : r[1]? = some k <;> simp [h, Nat.add_comm]

theorem occurrences_pos_iff (rows : List Row) (k : GoString) :
    0 < occurrences rows k ↔ ∃ r ∈ rows, r[1]? = some k := by
  unfold occurrences rowsOfKey
  rw [List.length_pos_iff_exists_mem]
  constructor
  · rintro ⟨r, hr⟩
    rw [List.mem_filter] at hr
    exact ⟨r, hr.1, by simpa using hr.2⟩
  · rintro ⟨r, hr, hk⟩
    exact ⟨r, List.mem_filter.mpr ⟨hr, by simpa using hk⟩⟩

/-- The counting loop started from any `counts`, on rows of at least 3 fields:
it returns a map and no error, and every key's count has grown by the number
of rows that carry the key. -/
theorem usernameCountsLoop_rows (rows : List Row) (h : ∀ r ∈ rows, 3 ≤ r.length)
    (counts : GoMap Int) :
    ∃ res, usernameCountsLoop (rows.map ReadResult.row) counts = .ret (some res) none ∧
      ∀ k, mapGet res k =
        if occurrences rows k = 0 then mapGet counts k
        else some (countAt counts k + (occurrences rows k : Int)) := by
  induction rows generalizing counts with
  | nil => exact ⟨counts, rfl, fun k => by simp [occurrences, rowsOfKey]⟩
  | cons r rows ih =>
    have hr : 3 ≤ r.length := h r (List.mem_cons_self _ _)
    have hlt : 1 < r.length := by omega
    obtain ⟨res, hres, hget⟩ :=
      ih (fun r' hr' => h r' (List.mem_cons_of_mem _ hr'))
        (mapSet counts r[1] (countAt counts r[1] + 1))
    refine ⟨res, ?_, ?_⟩
    · have hn : ¬ r.length < 3 := by omega
      simp only [List.map_cons, usernameCountsLoop, hn, if_false, List.getElem?_eq_getElem hlt]
      exact hres
    · intro k
      rw [hget k, occurrences_cons, List.getElem?_eq_getElem hlt]
      by_cases hk : r[1] = k
      · subst hk
        by_cases h0 : occurrences rows r[1] = 0
        · simp [h0, mapGet_mapSet_self]
        · simp [h0, countAt, mapGet_mapSet_self]
          omega
      · have hk' : ¬ (some r[1] = some k) := by simpa using hk
        simp only [hk', if_false, Nat.zero_add, countAt, mapGet_mapSet_other _ _ _ _ hk]

theorem usernameCounts_rows (rows : List Row) (h : ∀ r ∈ rows, 3 ≤ r.length) :
    ∃ counts, usernameCounts (rows.map ReadResult.row) = .ret (some counts) none ∧
      (∀ k, mapGet counts k =
        if occurrences rows k = 0 then none else some (occurrences rows k : Int)) ∧
      ∀ k, countAt counts k = (occurrences rows k : Int) := by
  obtain ⟨counts, hres, hget⟩ := usernameCountsLoop_rows rows h []
  refine ⟨counts, hres, ?_, ?_⟩
  · intro k
    simpa [mapGet, countAt] using hget k
  · intro k
    have := hget k
    by_cases h0 : occurrences rows k = 0
    · simp [countAt, this, h0, mapGet]
    · simp [countAt, this, h0, mapGet]

/-- The counting loop never panics, and whenever it returns an error the map
it returns is nil. -/
theorem usernameCountsLoop_cases (file : List ReadResult) (counts : GoMap Int) :
    (∃ res, usernameCountsLoop file counts = .ret (some res) none) ∨
      ∃ e, usernameCountsLoop file counts = .ret none (some e) := by
  induction file generalizing counts with
  | nil => exact Or.inl ⟨counts, rfl⟩
  | cons x rest ih =>
    cases x with
    | fail e => exact Or.inr ⟨e, rfl⟩
    | row r =>
      by_cases hlen : r.length < 3
      · exact Or.inr ⟨columnsError, by simp [usernameCountsLoop, hlen]⟩
      · have hlt : 1 < r.length := by omega
        simp only [usernameCountsLoop, hlen, if_false, List.getElem?_eq_getElem hlt]
        exact ih _

/-- On rows read without a read error, the counting loop returns an error
exactly when some row has fewer than 3 fields. -/
theorem usernameCountsLoop_error_iff (rows : List Row) (counts : GoMap Int) :
    (∃ v e, usernameCountsLoop (rows.map ReadResult.row) counts = .ret v (some e)) ↔
      ∃ r ∈ rows, r.length < 3 := by
  induction rows generalizing counts with
  | nil => simp [usernameCountsLoop]
  | cons r rows ih =>
    by_cases hlen : r.length < 3
    · constructor
      · intro _
        exact ⟨r, List.mem_cons_self _ _, hlen⟩
      · intro _
        exact ⟨none, columnsError, by simp [usernameCountsLoop, hlen]⟩
    · have hlt : 1 < r.length := by omega
      simp only [List.map_cons, usernameCountsLoop, hlen, if_false,
        List.getElem?_eq_getElem hlt]
      rw [ih]
      constructor
      · rintro ⟨r', hr', hl⟩
        exact ⟨r', List.mem_cons_of_mem _ hr', hl⟩
      · rintro ⟨r', hr', hl⟩
        rcases List.mem_cons.mp hr' with rfl | hmem
        · exact absurd hl hlen
        · exact ⟨r', hmem, hl⟩

/-! ## Slicing the buffer -/

/-- Induction over a list two elements at a time, the way the slicing loop
walks `is`. -/
theorem pairs_induction {α : Type} {P : List α → Prop} (nil : P [])
    (single : ∀ a, P [a]) (pair : ∀ a b rest, P rest → P (a :: b :: rest)) : ∀ l, P l
  | [] => nil
  | [a] => single a
  | a :: b :: rest => pair a b rest (pairs_induction nil single pair rest)

theorem goSlice_append (buf msg : Bytes) (lo hi : Nat) (t : Bytes)
    (h : goSlice buf lo hi = some t) : goSlice (buf ++ msg) lo hi = some t := by
  unfold goSlice at h ⊢
  by_cases hc : lo ≤ hi ∧ hi ≤ buf.length
  · rw [if_pos hc] at h
    have hc' : lo ≤ hi ∧ hi ≤ (buf ++ msg).length := by
      rw [List.length_append]
      omega
    rw [if_pos hc']
    rw [← h]
    congr 1
    rw [List.drop_append_of_le_length (by omega), List.take_append_of_le_length]
    rw [List.length_drop]
    omega
  · rw [if_neg hc] at h
    cases h

theorem goSlice_written (buf msg : Bytes) :
    goSlice (buf ++ msg) buf.length (buf.length + msg.length) = some msg := by
  unfold goSlice
  have hc : buf.length ≤ buf.length + msg.length ∧
      buf.length + msg.length ≤ (buf ++ msg).length := by
    rw [List.length_append]
    omega
  rw [if_pos hc]
  simp

theorem sliceViews_acc (buf : Bytes) (is : List Nat) (acc : List Bytes) :
    sliceViews buf is acc = (sliceViews buf is []).map (acc ++ ·) := by
  induction is using pairs_induction generalizing acc with
  | nil => simp [sliceViews]
  | single a => simp [sliceViews]
  | pair lo hi rest ih =>
    simp only [sliceViews]
    cases hs : goSlice buf lo hi with
    | none => simp
    | some t =>
      simp only
      rw [ih (acc ++ [t]), ih ([] ++ [t])]
      cases sliceViews buf rest [] <;> simp

theorem sliceViews_append (buf msg : Bytes) (is : List Nat) (vs : List Bytes)
    (h : sliceViews buf is [] = some vs) : sliceViews (buf ++ msg) is [] = some vs := by
  induction is using pairs_induction generalizing vs with
  | nil => simpa [sliceViews] using h
  | single a => simp [sliceViews] at h
  | pair lo hi rest ih =>
    simp only [sliceViews] at h ⊢
    cases hs : goSlice buf lo hi with
    | none => simp [hs] at h
    | some t =>
      rw [hs] at h
      simp only at h
      rw [goSlice_append buf msg lo hi t hs]
      simp only
      rw [sliceViews_acc] at h ⊢
      cases hr : sliceViews buf rest [] with
      | none => simp [hr] at h
      | some ws =>
        rw [hr] at h
        rw [ih ws hr]
        exact h

theorem sliceViews_snoc (buf : Bytes) (is : List Nat) (vs : List Bytes) (lo hi : Nat)
    (t : Bytes) (h : sliceViews buf is [] = some vs) (ht : goSlice buf lo hi = some t) :
    sliceViews buf (is ++ [lo, hi]) [] = some (vs ++ [t]) := by
  induction is using pairs_induction generalizing vs with
  | nil =>
    simp only [sliceViews] at h
    cases h
    simp [sliceViews, ht]
  | single a => simp [sliceViews] at h
  | pair a b rest ih =>
    simp only [List.cons_append, sliceViews] at h ⊢
    cases hs : goSlice buf a b with
    | none => simp [hs] at h
    | some u =>
      rw [hs] at h
      simp only [List.append_eq] at h ⊢
      rw [sliceViews_acc] at h ⊢
      cases hr : sliceViews buf rest [] with
      | none => simp [hr] at h
      | some ws =>
        rw [hr] at h
        rw [ih ws hr]
        simp only [Option.map_some', Option.some.injEq] at h ⊢
        rw [← h]
        simp

/-! ## The grouping pass -/

theorem payloadsOf_cons (r : Row) (rows : List Row) (k : GoString) :
    payloadsOf (r :: rows) k =
      if r[1]? = some k then r.getLast?.toList ++ payloadsOf rows k else payloadsOf rows k := by
  unfold payloadsOf
  rw [rowsOfKey_cons]
  by_cases h : r[1]? = some k
  · rw [if_pos h, if_pos h, List.filterMap_cons]
    cases r.getLast? <;> simp
  · rw [if_neg h, if_neg h]

theorem sliceAt_mapSet_self {V : Type} (m : GoMap (List V)) (k : GoString) (v : List V) :
    sliceAt (mapSet m k v) k = v := by
  simp [sliceAt, mapGet_mapSet_self]

theorem sliceAt_mapSet_other {V : Type} (m : GoMap (List V)) (k j : GoString) (v : List V)
    (h : k ≠ j) : sliceAt (mapSet m k v) j = sliceAt m j := by
  simp [sliceAt, mapGet_mapSet_other m k j v h]

/-- The invariant of the first loop of `tweetsPerUser`, on rows of at least 2
fields: if before the loop every key's index list slices the buffer into the
payloads `P k`, then the loop ends at `io.EOF` and afterwards every key's index
list slices the final buffer into `P k` followed by the payloads of the
retained rows of that key. -/
theorem groupLoop_rows (counts : GoMap Int) (rows : List Row) (h : ∀ r ∈ rows, 2 ≤ r.length)
    (indices : GoMap (List Nat)) (buffer : Bytes) (P : GoString → List Bytes)
    (hnodup : (mapKeys indices).Nodup)
    (hinv : ∀ k, sliceViews buffer (sliceAt indices k) [] = some (P k)) :
    ∃ indices' buffer',
      groupLoop counts (rows.map ReadResult.row) indices buffer = .eof indices' buffer' ∧
      (mapKeys indices').Nodup ∧
      (∀ k, sliceViews buffer' (sliceAt indices' k) [] =
        some (P k ++ if countAt counts k < 2 then [] else payloadsOf rows k)) ∧
      (∀ k, k ∈ mapKeys indices' ↔
        k ∈ mapKeys indices ∨ (¬ countAt counts k < 2 ∧ 0 < occurrences rows k)) := by
  induction rows generalizing indices buffer P with
  | nil =>
    refine ⟨indices, buffer, rfl, hnodup, ?_, ?_⟩
    · intro k
      simp [payloadsOf, rowsOfKey, hinv k]
    · intro k
      simp [occurrences, rowsOfKey]
  | cons r rows ih =>
    have hr : 2 ≤ r.length := h r (List.mem_cons_self _ _)
    have hrows : ∀ r' ∈ rows, 2 ≤ r'.length := fun r' hr' => h r' (List.mem_cons_of_mem _ hr')
    have h1 : 1 < r.length := by omega
    have hl : r.length - 1 < r.length := by omega
    have hlast : r.getLast? = some (r[r.length - 1]) := by
      rw [List.getLast?_eq_getElem?, List.getElem?_eq_getElem hl]
    by_cases hc : countAt counts r[1] < 2
    · obtain ⟨indices', buffer', hrun, hnd, hv, hk⟩ := ih hrows indices buffer P hnodup hinv
      refine ⟨indices', buffer', ?_, hnd, ?_, ?_⟩
      · simp only [List.map_cons, groupLoop, List.getElem?_eq_getElem h1, hc, if_true]
        exact hrun
      · intro k
        rw [hv k, payloadsOf_cons, List.getElem?_eq_getElem h1]
        by_cases hku : r[1] = k
        · subst hku
          simp [hc]
        · have : ¬ (some r[1] = some k) := by simpa using hku
          rw [if_neg this]
      · intro k
        rw [hk k, occurrences_cons, List.getElem?_eq_getElem h1]
        by_cases hku : r[1] = k
        · subst hku
          simp [hc]
        · have : ¬ (some r[1] = some k) := by simpa using hku
          rw [if_neg this, Nat.zero_add]
    · have hinv' : ∀ k,
          sliceViews (buffer ++ r[r.length - 1])
            (sliceAt (mapSet indices r[1]
              (sliceAt indices r[1] ++ [buffer.length, buffer.length + (r[r.length - 1]).length])) k)
            [] = some (if r[1] = k then P k ++ [r[r.length - 1]] else P k) := by
        intro k
        by_cases hku : r[1] = k
        · subst hku
          rw [sliceAt_mapSet_self, if_pos rfl]
          exact sliceViews_snoc _ _ _ _ _ _
            (sliceViews_append _ _ _ _ (hinv _)) (goSlice_written _ _)
        · rw [sliceAt_mapSet_other _ _ _ _ hku, if_neg hku]
          exact sliceViews_append _ _ _ _ (hinv k)
      obtain ⟨indices', buffer', hrun, hnd, hv, hk⟩ :=
        ih hrows _ _ _ (nodup_mapKeys_mapSet indices r[1] _ hnodup) hinv'
      refine ⟨indices', buffer', ?_, hnd, ?_, ?_⟩
      · simp only [List.map_cons, groupLoop, List.getElem?_eq_getElem h1, hc, if_false,
          List.getElem?_eq_getElem hl]
        exact hrun
      · intro k
        rw [hv k, payloadsOf_cons, List.getElem?_eq_getElem h1, hlast]
        by_cases hku : r[1] = k
        · subst hku
          simp [hc]
        · have : ¬ (some r[1] = some k) := by simpa using hku
          rw [if_neg this, if_neg hku]
      · intro k
        rw [hk k, mem_mapKeys_mapSet, occurrences_cons, List.getElem?_eq_getElem h1]
        by_cases hku : r[1] = k
        · subst hku
          simp [hc]
        · have : ¬ (some r[1] = some k) := by simpa using hku
          have hku' : ¬ k = r[1] := fun e => hku e.symm
          rw [if_neg this, Nat.zero_add]
          simp [hku']

/-- The second loop of `tweetsPerUser`: when the keys of `indices` are distinct
and every index list slices the buffer without a panic, the loop ends and the
result holds, for every key of `indices`, the slices of its index list. -/
theorem sliceLoop_spec (buf : Bytes) (entries : GoMap (List Nat)) (res0 : GoMap (List Bytes))
    (hnd : (mapKeys entries).Nodup) (hnd0 : (mapKeys res0).Nodup)
    (hok : ∀ k is, mapGet entries k = some is → ∃ vs, sliceViews buf is [] = some vs) :
    ∃ res, sliceLoop buf entries res0 = some res ∧ (mapKeys res).Nodup ∧
      ∀ k, mapGet res k =
        match mapGet entries k with
        | some is => sliceViews buf is []
        | none => mapGet res0 k := by
  induction entries generalizing res0 with
  | nil => exact ⟨res0, rfl, hnd0, fun k => by simp [mapGet]⟩
  | cons p rest ih =>
    obtain ⟨u, is⟩ := p
    have hu : u ∉ mapKeys rest := by
      have := hnd
      simp only [mapKeys, List.map_cons, List.nodup_cons] at this
      exact this.1
    have hrest : (mapKeys rest).Nodup := by
      have := hnd
      simp only [mapKeys, List.map_cons, List.nodup_cons] at this
      exact this.2
    obtain ⟨vs, hvs⟩ := hok u is (by simp [mapGet])
    have hok' : ∀ k is', mapGet rest k = some is' → ∃ ws, sliceViews buf is' [] = some ws := by
      intro k is' hget
      have hk : k ∈ mapKeys rest := (mem_mapKeys_iff rest k).mpr ⟨is', hget⟩
      have hne : ¬ u = k := fun e => hu (e ▸ hk)
      exact hok k is' (by simp [mapGet, hne, hget])
    obtain ⟨res, hrun, hndr, hget⟩ :=
      ih (mapSet res0 u vs) hrest (nodup_mapKeys_mapSet res0 u vs hnd0) hok'
    refine ⟨res, ?_, hndr, ?_⟩
    · simp only [sliceLoop, hvs]
      exact hrun
    · intro k
      rw [hget k]
      by_cases hk : u = k
      · subst hk
        have hnone : mapGet rest u = none := (mapGet_eq_none_iff rest u).mpr hu
        simp [hnone, mapGet, mapGet_mapSet_self, hvs]
      · simp only [mapGet, hk, if_false]
        cases mapGet rest k with
        | none => simp [mapGet_mapSet_other res0 u k vs hk]
        | some is' => rfl

/-- What `tweetsPerUser` returns on rows of at least 2 fields: a mapping and no
error; the keys of the mapping are distinct, a key is present exactly when its
count is at least 2 and it is the key of some row, and it then maps to the
last fields of its rows in input order. -/
theorem tweetsPerUser_rows (counts : GoMap Int) (rows : List Row)
    (h : ∀ r ∈ rows, 2 ≤ r.length) :
    ∃ res, tweetsPerUser (rows.map ReadResult.row) counts = .ret (some res) none ∧
      (mapKeys res).Nodup ∧
      ∀ k, mapGet res k =
        if ¬ countAt counts k < 2 ∧ 0 < occurrences rows k then some (payloadsOf rows k)
        else none := by
  obtain ⟨indices, buffer, hrun, hnd, hv, hk⟩ :=
    groupLoop_rows counts rows h [] [] (fun _ => []) (by simp [mapKeys])
      (fun k => by simp [sliceAt, mapGet, sliceViews])
  have hok : ∀ k is, mapGet indices k = some is → ∃ vs, sliceViews buffer is [] = some vs := by
    intro k is hget
    have := hv k
    simp only [sliceAt, hget, Option.getD_some] at this
    exact ⟨_, this⟩
  obtain ⟨res, hloop, hndr, hget⟩ := sliceLoop_spec buffer indices [] hnd (by simp [mapKeys]) hok
  refine ⟨res, ?_, hndr, ?_⟩
  · simp only [tweetsPerUser, hrun, hloop]
  · intro k
    rw [hget k]
    have hmem := hk k
    have hvk := hv k
    cases hg : mapGet indices k with
    | none =>
      have hnot : k ∉ mapKeys indices := (mapGet_eq_none_iff indices k).mp hg
      have hcond : ¬ (¬ countAt counts k < 2 ∧ 0 < occurrences rows k) := by
        intro hc
        exact hnot (hmem.mpr (Or.inr hc))
      simp only [mapGet]
      rw [if_neg hcond]
    | some is =>
      have hin : k ∈ mapKeys indices := (mem_mapKeys_iff indices k).mpr ⟨is, hg⟩
      have hcond : ¬ countAt counts k < 2 ∧ 0 < occurrences rows k := by
        rcases hmem.mp hin with h0 | h1
        · simp [mapKeys] at h0
        · exact h1
      simp only [sliceAt, hg, Option.getD_some] at hvk
      simp only
      rw [hvk, if_pos hcond, if_neg hcond.1, List.nil_append]

/-! ## Sorting and the producer loop -/

/-- The order used for sorting is the byte-wise lexicographic order. -/
theorem goString_le_iff (a b : GoString) : a ≤ b ↔ a = b ∨ List.Lex (· < ·) a b :=
  le_iff_eq_or_lt

theorem sortStrings_sorted (usernames : List GoString) :
    (sortStrings usernames).Sorted (· ≤ ·) :=
  List.sorted_insertionSort (· ≤ ·) usernames

theorem sortStrings_perm (usernames : List GoString) :
    (sortStrings usernames).Perm usernames :=
  List.perm_insertionSort (· ≤ ·) usernames

theorem mem_sortedUsernames (mapping : GoMap (List Bytes)) (k : GoString) :
    k ∈ sortedUsernames mapping ↔ k ∈ mapKeys mapping :=
  (sortStrings_perm (mapKeys mapping)).mem_iff

theorem nodup_sortedUsernames (mapping : GoMap (List Bytes)) (h : (mapKeys mapping).Nodup) :
    (sortedUsernames mapping).Nodup :=
  (sortStrings_perm (mapKeys mapping)).nodup_iff.mpr h

theorem emitLoop_user_mem (mapping : GoMap (List Bytes)) (users : List GoString) (rec : Record)
    (h : rec ∈ emitLoop mapping users) : rec.User ∈ users := by
  induction users with
  | nil => simp [emitLoop] at h
  | cons u rest ih =>
    simp only [emitLoop, List.mem_append, List.mem_map] at h
    rcases h with ⟨t, _, rfl⟩ | h
    · exact List.mem_cons_self _ _
    · exact List.mem_cons_of_mem _ (ih h)

/-- The keys of the records sent are in non-decreasing order when the usernames are. -/
theorem emitLoop_sorted (mapping : GoMap (List Bytes)) (users : List GoString)
    (h : users.Sorted (· ≤ ·)) : ((emitLoop mapping users).map Record.User).Sorted (· ≤ ·) := by
  induction users with
  | nil => simp [emitLoop]
  | cons u rest ih =>
    have hrest : rest.Sorted (· ≤ ·) := h.of_cons
    have hle : ∀ b ∈ rest, u ≤ b := fun b hb => List.rel_of_sorted_cons h b hb
    simp only [emitLoop, List.map_append, List.map_map]
    unfold List.Sorted
    rw [List.pairwise_append]
    refine ⟨?_, ih hrest, ?_⟩
    · rw [List.pairwise_map]
      exact List.pairwise_of_forall (fun _ _ => le_refl u)
    · intro a ha b hb
      rw [List.mem_map] at ha hb
      obtain ⟨t, _, rfl⟩ := ha
      obtain ⟨rec, hrec, rfl⟩ := hb
      exact hle _ (emitLoop_user_mem mapping rest rec hrec)

/-- The records of one key among those sent, when the usernames are distinct:
one record per slice of the key, in stored order. -/
theorem emitLoop_filter (mapping : GoMap (List Bytes)) (users : List GoString)
    (h : users.Nodup) (k : GoString) :
    (emitLoop mapping users).filter (fun rec => decide (rec.User = k)) =
      if k ∈ users then (sliceAt mapping k).map (fun tweet => ⟨k, tweet⟩) else [] := by
  induction users with
  | nil => simp [emitLoop]
  | cons u rest ih =>
    have hu : u ∉ rest := (List.nodup_cons.mp h).1
    have ih := ih (List.nodup_cons.mp h).2
    simp only [emitLoop, List.filter_append, ih]
    by_cases hk : u = k
    · subst hk
      simp only [List.mem_cons, true_or, if_true, if_neg hu, List.append_nil]
      rw [List.filter_eq_self]
      intro rec hrec
      rw [List.mem_map] at hrec
      obtain ⟨t, _, rfl⟩ := hrec
      simp
    · have hk' : ¬ k = u := fun e => hk e.symm
      have hnil : List.filter (fun rec : Record => decide (rec.User = k))
          (List.map (fun tweet => (⟨u, tweet⟩ : Record)) (sliceAt mapping u)) = [] := by
        rw [List.filter_eq_nil_iff]
        intro rec hrec
        rw [List.mem_map] at hrec
        obtain ⟨t, _, rfl⟩ := hrec
        simpa using hk
      rw [hnil, List.nil_append]
      simp [hk']

/-! ## The whole run -/

theorem getLast?_of_key (r : Row) (k : GoString) (h : r[1]? = some k) :
    ∃ body, r.getLast? = some body := by
  cases r with
  | nil => simp at h
  | cons a t => exact ⟨_, List.getLast?_eq_getLast _ (List.cons_ne_nil a t)⟩

theorem payloadsOf_length (rows : List Row) (k : GoString) :
    (payloadsOf rows k).length = occurrences rows k := by
  induction rows with
  | nil => simp [payloadsOf, occurrences, rowsOfKey]
  | cons r rows ih =>
    rw [payloadsOf_cons, occurrences_cons]
    by_cases h : r[1]? = some k
    · obtain ⟨body, hb⟩ := getLast?_of_key r k h
      simp [h, hb, ih, Nat.add_comm]
    · simp [h, ih]

/-- Both passes on rows of at least 3 fields: the counts are the numbers of
occurrences, the mapping holds exactly the keys that occur at least twice,
each with the last fields of its rows, and the records sent are those of the
producer loop over the sorted keys. -/
theorem run_rows (rows : List Row) (h : ∀ r ∈ rows, 3 ≤ r.length) :
    ∃ counts mapping,
      usernameCounts (rows.map ReadResult.row) = .ret (some counts) none ∧
      tweetsPerUser (rows.map ReadResult.row) counts = .ret (some mapping) none ∧
      emittedRecords (rows.map ReadResult.row) =
        some (emitLoop mapping (sortedUsernames mapping)) ∧
      (∀ k, countAt counts k = (occurrences rows k : Int)) ∧
      (mapKeys mapping).Nodup ∧
      ∀ k, mapGet mapping k =
        if 2 ≤ occurrences rows k then some (payloadsOf rows k) else none := by
  obtain ⟨counts, hc, _, hcount⟩ := usernameCounts_rows rows h
  obtain ⟨mapping, hm, hnd, hget⟩ :=
    tweetsPerUser_rows counts rows (fun r hr => by have := h r hr; omega)
  refine ⟨counts, mapping, hc, hm, ?_, hcount, hnd, ?_⟩
  · simp only [emittedRecords, hc, Option.getD_some, hm]
  · intro k
    rw [hget k, hcount k]
    by_cases h2 : 2 ≤ occurrences rows k
    · have : ¬ ((occurrences rows k : Int) < 2) ∧ 0 < occurrences rows k := by omega
      rw [if_pos this, if_pos h2]
    · have : ¬ (¬ ((occurrences rows k : Int) < 2) ∧ 0 < occurrences rows k) := by omega
      rw [if_neg this, if_neg h2]

/-- The records of key `k` among the rows kept by a predicate on keys. -/
theorem keptRecords_filter (keep : GoString → Bool) (rows : List Row) (k : GoString) :
    ((rows.filter (fun r =>
        match r[1]? with
        | some u => keep u
        | none => false)).filterMap recordOf).filter (fun rec => decide (rec.User = k)) =
      if keep k = true then (payloadsOf rows k).map (fun tweet => ⟨k, tweet⟩) else [] := by
  induction rows with
  | nil => simp [payloadsOf, rowsOfKey]
  | cons r rows ih =>
    rw [payloadsOf_cons, List.filter_cons]
    cases hr : r[1]? with
    | none => simpa using ih
    | some u =>
      obtain ⟨body, hb⟩ := getLast?_of_key r u hr
      by_cases hu : keep u = true
      · simp only [hu, if_true, List.filterMap_cons, recordOf, hr, hb, List.filter_cons]
        by_cases huk : u = k
        · subst huk
          simp only [decide_True, if_true, ih, hu, Option.toList, List.map_append,
            List.map_cons, List.map_nil, List.singleton_append]
        · have : ¬ (some u = some k) := by simpa using huk
          simp only [huk, decide_False, ih, this, if_false]
          rfl
      · simp only [hu]
        by_cases huk : u = k
        · subst huk
          simpa [hu] using ih
        · have : ¬ (some u = some k) := by simpa using huk
          simpa [this] using ih

/-- Two lists of records with the same records of every key, in whatever
order the keys come, are permutations of each other. -/
theorem perm_of_filter_eq (l₁ l₂ : List Record)
    (h : ∀ k, l₁.filter (fun rec => decide (rec.User = k)) =
      l₂.filter (fun rec => decide (rec.User = k))) : l₁.Perm l₂ := by
  rw [List.perm_iff_count]
  intro a
  have h1 := List.count_filter (l := l₁) (p := fun rec : Record => decide (rec.User = a.User))
    (a := a) (by simp)
  have h2 := List.count_filter (l := l₂) (p := fun rec : Record => decide (rec.User = a.User))
    (a := a) (by simp)
  rw [← h1, ← h2, h a.User]

theorem usernameCountsLoop_ok_rows (file : List ReadResult) (counts res : GoMap Int)
    (h : usernameCountsLoop file counts = .ret (some res) none) :
    ∀ r, ReadResult.row r ∈ file → 3 ≤ r.length := by
  induction file generalizing counts with
  | nil => intro r hr; simp at hr
  | cons x rest ih =>
    cases x with
    | fail e => simp [usernameCountsLoop] at h
    | row r0 =>
      by_cases hlen : r0.length < 3
      · simp [usernameCountsLoop, hlen] at h
      · have hlt : 1 < r0.length := by omega
        simp only [usernameCountsLoop, hlen, if_false, List.getElem?_eq_getElem hlt] at h
        intro r hr
        rcases List.mem_cons.mp hr with e | hmem
        · cases e
          omega
        · exact ih _ h r hmem

theorem groupLoop_append (counts : GoMap Int) (xs ys : List ReadResult)
    (indices indices' : GoMap (List Nat)) (buffer buffer' : Bytes)
    (h : groupLoop counts xs indices buffer = .eof indices' buffer') :
    groupLoop counts (xs ++ ys) indices buffer = groupLoop counts ys indices' buffer' := by
  induction xs generalizing indices buffer with
  | nil =>
    simp only [groupLoop, GroupExit.eof.injEq] at h
    obtain ⟨rfl, rfl⟩ := h
    rfl
  | cons x rest ih =>
    cases x with
    | fail e => simp [groupLoop] at h
    | row r =>
      simp only [List.cons_append, groupLoop] at h ⊢
      cases h1 : r[1]? with
      | none => simp [h1] at h
      | some user =>
        simp only [h1] at h ⊢
        by_cases hc : countAt counts user < 2
        · simp only [hc, if_true] at h ⊢
          exact ih _ _ h
        · simp only [hc, if_false] at h ⊢
          cases hl : r[r.length - 1]? with
          | none => simp [hl] at h
          | some msg =>
            simp only [hl] at h ⊢
            exact ih _ _ h

theorem sorted_block (l : List GoString) (hs : l.Sorted (· ≤ ·)) (i m j : Nat)
    (him : i ≤ m) (hmj : m ≤ j) (a b c : GoString)
    (ha : l[i]? = some a) (hb : l[m]? = some b) (hc : l[j]? = some c) (hac : a = c) :
    b = a := by
  obtain ⟨hi, rfl⟩ := List.getElem?_eq_some.mp ha
  obtain ⟨hm, rfl⟩ := List.getElem?_eq_some.mp hb
  obtain ⟨hj, rfl⟩ := List.getElem?_eq_some.mp hc
  have h1 : l.get ⟨i, hi⟩ ≤ l.get ⟨m, hm⟩ := hs.rel_get_of_le (a := ⟨i, hi⟩) (b := ⟨m, hm⟩) him
  have h2 : l.get ⟨m, hm⟩ ≤ l.get ⟨j, hj⟩ := hs.rel_get_of_le (a := ⟨m, hm⟩) (b := ⟨j, hj⟩) hmj
  simp only [List.get_eq_getElem] at h1 h2
  rw [← hac] at h2
  exact le_antisymm h2 h1

theorem recordOf_length (l : List Row) (h : ∀ r ∈ l, 2 ≤ r.length) :
    (l.filterMap recordOf).length = l.length := by
  induction l with
  | nil => rfl
  | cons r rest ih =>
    have hr : 2 ≤ r.length := h r (List.mem_cons_self _ _)
    have h1 : 1 < r.length := by omega
    obtain ⟨body, hb⟩ := getLast?_of_key r r[1] (List.getElem?_eq_getElem h1)
    have hrec : recordOf r = some ⟨r[1], body⟩ := by
      simp only [recordOf, List.getElem?_eq_getElem h1, hb]
    rw [List.filterMap_cons, hrec]
    simp only [List.length_cons]
    rw [ih (fun r' hr' => h r' (List.mem_cons_of_mem _ hr'))]

/-- The records sent by the run on rows of at least 3 fields are a permutation
of the records of the retained rows. -/
theorem emitted_perm (rows : List Row) (h : ∀ r ∈ rows, 3 ≤ r.length) :
    ∃ recs, emittedRecords (rows.map ReadResult.row) = some recs ∧
      recs.Perm ((retainedRows rows).filterMap recordOf) := by
  obtain ⟨counts, mapping, _, _, he, _, hnd, hget⟩ := run_rows rows h
  refine ⟨_, he, perm_of_filter_eq _ _ ?_⟩
  intro k
  rw [emitLoop_filter mapping _ (nodup_sortedUsernames mapping hnd) k]
  unfold retainedRows
  rw [keptRecords_filter (fun u => decide (2 ≤ occurrences rows u)) rows k]
  by_cases hk : 2 ≤ occurrences rows k
  · have hmem : k ∈ sortedUsernames mapping := by
      rw [mem_sortedUsernames, mem_mapKeys_iff, hget k, if_pos hk]
      exact ⟨_, rfl⟩
    have hs : sliceAt mapping k = payloadsOf rows k := by
      simp [sliceAt, hget k, hk]
    simp [hmem, hs, hk]
  · have hmem : k ∉ sortedUsernames mapping := by
      rw [mem_sortedUsernames, ← mapGet_eq_none_iff, hget k, if_neg hk]
    simp [hmem, hk]

theorem retainedRows_sublist (rows : List Row) : ∀ r ∈ retainedRows rows, r ∈ rows :=
  fun _ hr => (List.mem_filter.mp hr).1

theorem usernameCounts_short_row (file : List ReadResult) (r : Row)
    (hr : ReadResult.row r ∈ file) (hlen : r.length < 3) :
    ∃ e, usernameCounts file = .ret none (some e) := by
  rcases usernameCountsLoop_cases file [] with ⟨res, hres⟩ | ⟨e, he⟩
  · have := usernameCountsLoop_ok_rows file [] res hres r hr
    omega
  · exact ⟨e, he⟩

/-! ## Independence of the map iteration order -/

theorem mapGet_eq_some_iff {V : Type} (m : GoMap V) (h : (mapKeys m).Nodup) (k : GoString)
    (v : V) : mapGet m k = some v ↔ (k, v) ∈ m := by
  induction m with
  | nil => simp [mapGet]
  | cons p rest ih =>
    obtain ⟨k', v'⟩ := p
    have hk' : k' ∉ mapKeys rest := by
      have := h
      simp only [mapKeys, List.map_cons, List.nodup_cons] at this
      exact this.1
    have hrest : (mapKeys rest).Nodup := by
      have := h
      simp only [mapKeys, List.map_cons, List.nodup_cons] at this
      exact this.2
    by_cases hk : k' = k
    · subst hk
      simp only [mapGet, if_true, Option.some.injEq, List.mem_cons, Prod.mk.injEq, true_and]
      constructor
      · intro e
        exact Or.inl e.symm
      · rintro (e | hmem)
        · exact e.symm
        · exact absurd (List.mem_map.mpr ⟨(k', v), hmem, rfl⟩) hk'
    · have hk2 : ¬ k = k' := fun e => hk e.symm
      simp only [mapGet, hk, if_false, List.mem_cons, Prod.mk.injEq, hk2, false_and, false_or]
      exact ih hrest

/-- A map read through `mapGet` does not depend on the order of its entries. -/
theorem mapGet_perm {V : Type} (m₁ m₂ : GoMap V) (hp : m₁.Perm m₂)
    (h : (mapKeys m₁).Nodup) (k : GoString) : mapGet m₁ k = mapGet m₂ k := by
  have h₂ : (mapKeys m₂).Nodup := (hp.map Prod.fst).nodup_iff.mp h
  apply Option.ext
  intro v
  simp only [Option.mem_def]
  rw [mapGet_eq_some_iff m₁ h, mapGet_eq_some_iff m₂ h₂]
  exact hp.mem_iff

/-- The invariant of the first loop of `tweetsPerUser` on any input: whenever
the loop reaches `io.EOF`, the keys of `indices` are distinct and every index
list slices the buffer without a panic. -/
theorem groupLoop_inv (counts : GoMap Int) (file : List ReadResult)
    (indices indices' : GoMap (List Nat)) (buffer buffer' : Bytes)
    (hnd : (mapKeys indices).Nodup)
    (hinv : ∀ k, ∃ vs, sliceViews buffer (sliceAt indices k) [] = some vs)
    (h : groupLoop counts file indices buffer = .eof indices' buffer') :
    (mapKeys indices').Nodup ∧
      ∀ k, ∃ vs, sliceViews buffer' (sliceAt indices' k) [] = some vs := by
  induction file generalizing indices buffer with
  | nil =>
    simp only [groupLoop, GroupExit.eof.injEq] at h
    obtain ⟨rfl, rfl⟩ := h
    exact ⟨hnd, hinv⟩
  | cons x rest ih =>
    cases x with
    | fail e => simp [groupLoop] at h
    | row r =>
      simp only [groupLoop] at h
      cases h1 : r[1]? with
      | none => simp [h1] at h
      | some user =>
        simp only [h1] at h
        by_cases hc : countAt counts user < 2
        · simp only [hc, if_true] at h
          exact ih _ _ hnd hinv h
        · simp only [hc, if_false] at h
          cases hl : r[r.length - 1]? with
          | none => simp [hl] at h
          | some msg =>
            simp only [hl] at h
            refine ih _ _ (nodup_mapKeys_mapSet indices user _ hnd) ?_ h
            intro k
            by_cases hk : user = k
            · subst hk
              obtain ⟨vs, hvs⟩ := hinv user
              rw [sliceAt_mapSet_self]
              exact ⟨_, sliceViews_snoc _ _ _ _ _ _
                (sliceViews_append _ _ _ _ hvs) (goSlice_written _ _)⟩
            · obtain ⟨vs, hvs⟩ := hinv k
              rw [sliceAt_mapSet_other _ _ _ _ hk]
              exact ⟨vs, sliceViews_append _ _ _ _ hvs⟩

/-- The second loop of `tweetsPerUser` after the first one has reached
`io.EOF`, with the entries of `indices` visited in any order: it ends without
a panic, the keys of the result are distinct, and a key maps to the slices of
its index list. -/
theorem sliceLoop_after_groupLoop (counts : GoMap Int) (file : List ReadResult)
    (indices : GoMap (List Nat)) (buffer : Bytes)
    (h : groupLoop counts file [] [] = .eof indices buffer)
    (entries : GoMap (List Nat)) (hp : entries.Perm indices) :
    ∃ res, sliceLoop buffer entries [] = some res ∧ (mapKeys res).Nodup ∧
      ∀ k, mapGet res k =
        match mapGet indices k with
        | some is => sliceViews buffer is []
        | none => none := by
  obtain ⟨hnd, hinv⟩ := groupLoop_inv counts file [] indices [] buffer (by simp [mapKeys])
    (fun k => ⟨[], by simp [sliceAt, mapGet, sliceViews]⟩) h
  have hnd' : (mapKeys entries).Nodup := (hp.map Prod.fst).nodup_iff.mpr hnd
  have hget : ∀ k, mapGet entries k = mapGet indices k := fun k => mapGet_perm _ _ hp hnd' k
  have hok : ∀ k is, mapGet entries k = some is → ∃ vs, sliceViews buffer is [] = some vs := by
    intro k is hk
    obtain ⟨vs, hvs⟩ := hinv k
    rw [hget k] at hk
    simp only [sliceAt, hk, Option.getD_some] at hvs
    exact ⟨vs, hvs⟩
  obtain ⟨res, hrun, hndr, hres⟩ := sliceLoop_spec buffer entries [] hnd' (by simp [mapKeys]) hok
  refine ⟨res, hrun, hndr, ?_⟩
  intro k
  rw [hres k, hget k]
  cases mapGet indices k <;> simp [mapGet]

theorem sortStrings_eq_of_perm (ks₁ ks₂ : List GoString) (h : ks₁.Perm ks₂) :
    sortStrings ks₁ = sortStrings ks₂ :=
  List.eq_of_perm_of_sorted
    (((sortStrings_perm ks₁).trans h).trans (sortStrings_perm ks₂).symm)
    (sortStrings_sorted ks₁) (sortStrings_sorted ks₂)

theorem emitLoop_congr (m₁ m₂ : GoMap (List Bytes)) (h : ∀ k, mapGet m₁ k = mapGet m₂ k)
    (users : List GoString) : emitLoop m₁ users = emitLoop m₂ users := by
  induction users with
  | nil => rfl
  | cons u rest ih => simp only [emitLoop, sliceAt, h u, ih]

theorem mapKeys_perm_of_mapGet_eq {V : Type} (m₁ m₂ : GoMap V) (h₁ : (mapKeys m₁).Nodup)
    (h₂ : (mapKeys m₂).Nodup) (h : ∀ k, mapGet m₁ k = mapGet m₂ k) :
    (mapKeys m₁).Perm (mapKeys m₂) := by
  rw [List.perm_ext_iff_of_nodup h₁ h₂]
  intro k
  rw [mem_mapKeys_iff, mem_mapKeys_iff, h k]

/-- The records sent do not depend on the orders in which the two `range`
loops visit their maps. -/
theorem emittedRecordsIn_eq (v₁ v₂ : GoMap (List Nat) → GoMap (List Nat))
    (k₁ k₂ : List GoString → List GoString)
    (hv₁ : ∀ m, (v₁ m).Perm m) (hv₂ : ∀ m, (v₂ m).Perm m)
    (hk₁ : ∀ ks, (k₁ ks).Perm ks) (hk₂ : ∀ ks, (k₂ ks).Perm ks) (file : List ReadResult) :
    emittedRecordsIn v₁ k₁ file = emittedRecordsIn v₂ k₂ file := by
  unfold emittedRecordsIn
  cases hc : usernameCounts file with
  | panic => rfl
  | ret counts err =>
    cases err with
    | some e => rfl
    | none =>
      simp only [tweetsPerUserIn]
      cases hg : groupLoop (counts.getD []) file [] [] with
      | panic => rfl
      | readError e => rfl
      | eof indices buffer =>
        obtain ⟨r₁, hr₁, hn₁, hg₁⟩ :=
          sliceLoop_after_groupLoop _ file indices buffer hg (v₁ indices) (hv₁ indices)
        obtain ⟨r₂, hr₂, hn₂, hg₂⟩ :=
          sliceLoop_after_groupLoop _ file indices buffer hg (v₂ indices) (hv₂ indices)
        have hget : ∀ k, mapGet r₁ k = mapGet r₂ k := fun k => by rw [hg₁ k, hg₂ k]
        have hperm : (k₁ (mapKeys r₁)).Perm (k₂ (mapKeys r₂)) :=
          ((hk₁ _).trans (mapKeys_perm_of_mapGet_eq r₁ r₂ hn₁ hn₂ hget)).trans (hk₂ _).symm
        simp only [hr₁, hr₂, Option.getD_some]
        rw [sortStrings_eq_of_perm _ _ hperm, emitLoop_congr r₁ r₂ hget]

/-! ## The emitter against its reference -/

theorem emitLoop_eq_flatMap (m : GoMap (List Bytes)) (users : List GoString) :
    emitLoop m users =
      users.flatMap fun key => (sliceAt m key).map fun view => ⟨key, view⟩ := by
  induction users with
  | nil => rfl
  | cons u rest ih => simp only [emitLoop, List.flatMap_cons, ih]

theorem sortedUsernames_eq_sort (m : GoMap (List Bytes)) (h : (mapKeys m).Nodup) :
    sortedUsernames m = (mapKeys m).toFinset.sort (· ≤ ·) := by
  refine List.eq_of_perm_of_sorted ?_ (sortStrings_sorted _) (Finset.sort_sorted _ _)
  rw [List.perm_ext_iff_of_nodup (nodup_sortedUsernames m h) (Finset.sort_nodup _ _)]
  intro k
  rw [mem_sortedUsernames, Finset.mem_sort, List.mem_toFinset]

/-! ## The layout of the buffer -/

theorem keptPayloads_cons (counts : GoMap Int) (r : Row) (rows : List Row) :
    keptPayloads counts (r :: rows) =
      match r[1]? with
      | some k =>
        if countAt counts k < 2 then keptPayloads counts rows
        else r.getLast?.toList ++ keptPayloads counts rows
      | none => keptPayloads counts rows := by
  unfold keptPayloads
  rw [List.filter_cons]
  cases h1 : r[1]? with
  | none => simp
  | some k =>
    by_cases hc : countAt counts k < 2
    · have : ¬ 2 ≤ countAt counts k := by omega
      simp [hc, this]
    · have : 2 ≤ countAt counts k := by omega
      simp only [this, decide_True, if_true, hc, if_false, List.filterMap_cons]
      cases r.getLast? <;> simp

theorem pairsOfKey_append (log : List (GoString × Nat × Nat)) (e : GoString × Nat × Nat)
    (k : GoString) :
    pairsOfKey (log ++ [e]) k =
      if e.1 = k then pairsOfKey log k ++ [e.2.1, e.2.2] else pairsOfKey log k := by
  unfold pairsOfKey
  by_cases h : e.1 = k <;> simp [List.filter_append, List.filter_cons, h]

/-- The first loop of `tweetsPerUser` with its log, on rows of at least 2
fields: it ends at `io.EOF`; the buffer has grown by the kept payloads in
input order, the log by the pairs these payloads get one after the other, and
every key's index list still holds the pairs logged for the key. -/
theorem groupLoopLog_rows (counts : GoMap Int) (rows : List Row) (h : ∀ r ∈ rows, 2 ≤ r.length)
    (indices : GoMap (List Nat)) (buffer : Bytes) (log : List (GoString × Nat × Nat))
    (hlink : ∀ k, sliceAt indices k = pairsOfKey log k) :
    ∃ indices' log',
      groupLoop counts (rows.map ReadResult.row) indices buffer =
        .eof indices' (buffer ++ (keptPayloads counts rows).flatten) ∧
      groupLoopLog counts (rows.map ReadResult.row) indices buffer log =
        some (indices', buffer ++ (keptPayloads counts rows).flatten, log') ∧
      log'.map Prod.snd =
        log.map Prod.snd ++ pairsFrom buffer.length (keptPayloads counts rows) ∧
      ∀ k, sliceAt indices' k = pairsOfKey log' k := by
  induction rows generalizing indices buffer log with
  | nil =>
    exact ⟨indices, log, by simp [groupLoop, keptPayloads],
      by simp [groupLoopLog, keptPayloads], by simp [keptPayloads, pairsFrom], hlink⟩
  | cons r rows ih =>
    have hr : 2 ≤ r.length := h r (List.mem_cons_self _ _)
    have hrows : ∀ r' ∈ rows, 2 ≤ r'.length := fun r' hr' => h r' (List.mem_cons_of_mem _ hr')
    have h1 : 1 < r.length := by omega
    have hl : r.length - 1 < r.length := by omega
    have hlast : r.getLast? = some (r[r.length - 1]) := by
      rw [List.getLast?_eq_getElem?, List.getElem?_eq_getElem hl]
    rw [keptPayloads_cons, List.getElem?_eq_getElem h1]
    by_cases hc : countAt counts r[1] < 2
    · obtain ⟨indices', log', hrun, hlog, hpairs, hl'⟩ := ih hrows indices buffer log hlink
      refine ⟨indices', log', ?_, ?_, ?_, hl'⟩
      · simp only [List.map_cons, groupLoop, List.getElem?_eq_getElem h1, hc, if_true]
        exact hrun
      · simp only [List.map_cons, groupLoopLog, List.getElem?_eq_getElem h1, hc, if_true]
        exact hlog
      · simp only [hc, if_true]
        exact hpairs
    · have hlink' : ∀ k,
          sliceAt (mapSet indices r[1]
            (sliceAt indices r[1] ++ [buffer.length, buffer.length + (r[r.length - 1]).length])) k =
          pairsOfKey
            (log ++ [(r[1], buffer.length, buffer.length + (r[r.length - 1]).length)]) k := by
        intro k
        rw [pairsOfKey_append]
        by_cases hk : r[1] = k
        · subst hk
          rw [sliceAt_mapSet_self, if_pos rfl, hlink]
        · rw [sliceAt_mapSet_other _ _ _ _ hk, if_neg hk, hlink]
      obtain ⟨indices', log', hrun, hlog, hpairs, hl'⟩ := ih hrows _ _ _ hlink'
      refine ⟨indices', log', ?_, ?_, ?_, hl'⟩
      · simp only [List.map_cons, groupLoop, List.getElem?_eq_getElem h1, hc, if_false,
          List.getElem?_eq_getElem hl, hlast, Option.toList, List.singleton_append,
          List.flatten_cons]
        rw [← List.append_assoc]
        exact hrun
      · simp only [List.map_cons, groupLoopLog, List.getElem?_eq_getElem h1, hc, if_false,
          List.getElem?_eq_getElem hl, hlast, Option.toList, List.singleton_append,
          List.flatten_cons]
        rw [← List.append_assoc]
        exact hlog
      · simp only [hc, if_false, hlast, Option.toList, List.singleton_append, pairsFrom]
        rw [hpairs]
        simp [List.length_append]

theorem pairsFrom_lengths (start : Nat) (msgs : List Bytes) :
    (pairsFrom start msgs).map (fun p => p.2 - p.1) = msgs.map List.length ∧
      ∀ p ∈ pairsFrom start msgs, p.1 ≤ p.2 := by
  induction msgs generalizing start with
  | nil => simp [pairsFrom]
  | cons m rest ih =>
    obtain ⟨h1, h2⟩ := ih (start + m.length)
    refine ⟨by simp [pairsFrom, h1], ?_⟩
    intro p hp
    simp only [pairsFrom, List.mem_cons] at hp
    rcases hp with rfl | hp
    · simp
    · exact h2 p hp

theorem pairsFrom_head (start : Nat) (msgs : List Bytes) (p : Nat × Nat)
    (h : (pairsFrom start msgs).head? = some p) : p.1 = start := by
  cases msgs with
  | nil => simp [pairsFrom] at h
  | cons m rest =>
    simp only [pairsFrom, List.head?_cons, Option.some.injEq] at h
    rw [← h]

theorem pairsFrom_chain (start : Nat) (msgs : List Bytes) :
    List.Chain' (fun a b : Nat × Nat => b.1 = a.2) (pairsFrom start msgs) := by
  induction msgs generalizing start with
  | nil => simp [pairsFrom]
  | cons m rest ih =>
    simp only [pairsFrom]
    rw [List.chain'_cons']
    refine ⟨?_, ih _⟩
    intro p hp
    exact pairsFrom_head _ _ p (by simpa using hp)

theorem pairsFrom_last (start : Nat) (msgs : List Bytes) (p : Nat × Nat)
    (h : (pairsFrom start msgs).getLast? = some p) :
    p.2 = start + msgs.flatten.length := by
  induction msgs generalizing start with
  | nil => simp [pairsFrom] at h
  | cons m rest ih =>
    cases rest with
    | nil =>
      simp only [pairsFrom, List.getLast?_singleton, Option.some.injEq] at h
      rw [← h]
      simp
    | cons m' rest' =>
      simp only [pairsFrom, List.getLast?_cons_cons] at h
      have := ih (start + m.length) (by simpa [pairsFrom] using h)
      rw [this]
      simp [List.length_append]
      omega

/-! ## Safety of the slicing loop and of the second pass -/

theorem sliceViews_inRange (buf : Bytes) (is : List Nat) (vs : List Bytes)
    (h : sliceViews buf is [] = some vs) : Even is.length ∧ pairsInRange buf.length is := by
  induction is using pairs_induction generalizing vs with
  | nil => exact ⟨by simp, trivial⟩
  | single a => simp [sliceViews] at h
  | pair lo hi rest ih =>
    simp only [sliceViews] at h
    cases hs : goSlice buf lo hi with
    | none => simp [hs] at h
    | some t =>
      rw [hs] at h
      simp only at h
      rw [sliceViews_acc] at h
      cases hr : sliceViews buf rest [] with
      | none => simp [hr] at h
      | some ws =>
        obtain ⟨he, hp⟩ := ih ws hr
        have hb : lo ≤ hi ∧ hi ≤ buf.length := by
          unfold goSlice at hs
          by_cases hc : lo ≤ hi ∧ hi ≤ buf.length
          · exact hc
          · rw [if_neg hc] at hs
            cases hs
        refine ⟨?_, hb.1, hb.2, hp⟩
        simp only [List.length_cons]
        obtain ⟨n, hn⟩ := he
        exact ⟨n + 1, by omega⟩

theorem usernameCountsLoop_ok_file (file : List ReadResult) (counts res : GoMap Int)
    (h : usernameCountsLoop file counts = .ret (some res) none) :
    ∃ rows : List Row, file = rows.map ReadResult.row ∧ ∀ r ∈ rows, 3 ≤ r.length := by
  induction file generalizing counts with
  | nil => exact ⟨[], rfl, by simp⟩
  | cons x rest ih =>
    cases x with
    | fail e => simp [usernameCountsLoop] at h
    | row r0 =>
      by_cases hlen : r0.length < 3
      · simp [usernameCountsLoop, hlen] at h
      · have hlt : 1 < r0.length := by omega
        simp only [usernameCountsLoop, hlen, if_false, List.getElem?_eq_getElem hlt] at h
        obtain ⟨rows, hrows, hall⟩ := ih _ h
        refine ⟨r0 :: rows, by rw [hrows]; rfl, ?_⟩
        intro r hr
        rcases List.mem_cons.mp hr with rfl | hmem
        · omega
        · exact hall r hmem

/-! ## The claims -/

/-- Claim C1. For every counts map and all rows of at least 3 fields,
`tweetsPerUser` returns a mapping and no error, and for every key `k` with
`counts[k] >= 2` that is field 1 of some row, `result[k]` is the list of the
last fields of the rows whose field 1 is `k`, in input order. -/
theorem tweetsPerUser_groups_payloads (counts : GoMap Int) (rows : List Row)
    (h : ∀ r ∈ rows, 3 ≤ r.length) :
    ∃ result, tweetsPerUser (rows.map ReadResult.row) counts = .ret (some result) none ∧
      ∀ k, 2 ≤ countAt counts k → (∃ r ∈ rows, r[1]? = some k) →
        mapGet result k = some (payloadsOf rows k) ∧ sliceAt result k = payloadsOf rows k := by
  obtain ⟨result, hrun, _, hget⟩ :=
    tweetsPerUser_rows counts rows (fun r hr => by have := h r hr; omega)
  refine ⟨result, hrun, ?_⟩
  intro k hk hocc
  have hcond : ¬ countAt counts k < 2 ∧ 0 < occurrences rows k :=
    ⟨by omega, (occurrences_pos_iff rows k).mpr hocc⟩
  have hk' := hget k
  rw [if_pos hcond] at hk'
  exact ⟨hk', by simp [sliceAt, hk']⟩

theorem tweetsPerUser_groups_payloads_witness :
    (∀ r ∈ [[[0], [1], [5, 6]], [[0], [2], [7]], [[0], [1], [8]]], 3 ≤ List.length r) ∧
    ∃ result,
      tweetsPerUser
        ([[[0], [1], [5, 6]], [[0], [2], [7]], [[0], [1], [8]]].map ReadResult.row)
        [([1], 2), ([2], 1)] = .ret (some result) none ∧
      ∀ k, 2 ≤ countAt [([1], 2), ([2], 1)] k →
        (∃ r ∈ [[[0], [1], [5, 6]], [[0], [2], [7]], [[0], [1], [8]]], r[1]? = some k) →
        mapGet result k =
            some (payloadsOf [[[0], [1], [5, 6]], [[0], [2], [7]], [[0], [1], [8]]] k) ∧
          sliceAt result k = payloadsOf [[[0], [1], [5, 6]], [[0], [2], [7]], [[0], [1], [8]]] k :=
  ⟨by decide, tweetsPerUser_groups_payloads _ _ (by decide)⟩

/-- Claim C2. For all rows of at least 3 fields, `usernameCounts` returns a map
and no error; `counts[k]` is the number of rows whose field 1 is `k`; a key
that occurs in some row is present with that number (so with 1 when it occurs
once), and a key that occurs in no row is absent. -/
theorem usernameCounts_counts_occurrences (rows : List Row) (h : ∀ r ∈ rows, 3 ≤ r.length) :
    ∃ counts, usernameCounts (rows.map ReadResult.row) = .ret (some counts) none ∧
      (∀ k, countAt counts k = (occurrences rows k : Int)) ∧
      (∀ k, occurrences rows k = 1 → mapGet counts k = some 1) ∧
      (∀ k, occurrences rows k = 0 → mapGet counts k = none) ∧
      ∀ k, 0 < occurrences rows k → mapGet counts k = some (occurrences rows k : Int) := by
  obtain ⟨counts, hrun, hget, hcount⟩ := usernameCounts_rows rows h
  refine ⟨counts, hrun, hcount, ?_, ?_, ?_⟩
  · intro k hk
    rw [hget k, hk]
    simp
  · intro k hk
    rw [hget k, if_pos hk]
  · intro k hk
    rw [hget k, if_neg (by omega)]

theorem usernameCounts_counts_occurrences_witness :
    (∀ r ∈ [[[0], [1], [5, 6]], [[0], [2], [7]], [[0], [1], [8]]], 3 ≤ List.length r) ∧
    ∃ counts,
      usernameCounts
        ([[[0], [1], [5, 6]], [[0], [2], [7]], [[0], [1], [8]]].map ReadResult.row) =
          .ret (some counts) none ∧
      (∀ k, countAt counts k =
        (occurrences [[[0], [1], [5, 6]], [[0], [2], [7]], [[0], [1], [8]]] k : Int)) ∧
      (∀ k, occurrences [[[0], [1], [5, 6]], [[0], [2], [7]], [[0], [1], [8]]] k = 1 →
        mapGet counts k = some 1) ∧
      (∀ k, occurrences [[[0], [1], [5, 6]], [[0], [2], [7]], [[0], [1], [8]]] k = 0 →
        mapGet counts k = none) ∧
      ∀ k, 0 < occurrences [[[0], [1], [5, 6]], [[0], [2], [7]], [[0], [1], [8]]] k →
        mapGet counts k =
          some (occurrences [[[0], [1], [5, 6]], [[0], [2], [7]], [[0], [1], [8]]] k : Int) :=
  ⟨by decide, usernameCounts_counts_occurrences _ (by decide)⟩

/-- Claim C3. On rows delivered without a read error, `usernameCounts` returns
an error if and only if some row has fewer than 3 fields; it never panics, and
whenever it returns an error the returned map is nil. -/
theorem usernameCounts_error_iff_short_row (rows : List Row) :
    ((∃ v e, usernameCounts (rows.map ReadResult.row) = .ret v (some e)) ↔
        ∃ r ∈ rows, r.length < 3) ∧
      (∀ v e, usernameCounts (rows.map ReadResult.row) = .ret v (some e) → v = none) ∧
      usernameCounts (rows.map ReadResult.row) ≠ .panic := by
  refine ⟨usernameCountsLoop_error_iff rows [], ?_, ?_⟩
  · intro v e hv
    rcases usernameCountsLoop_cases (rows.map ReadResult.row) [] with ⟨res, hres⟩ | ⟨e', he'⟩
    · unfold usernameCounts at hv
      rw [hres] at hv
      cases hv
    · unfold usernameCounts at hv
      rw [he'] at hv
      cases hv
      rfl
  · intro hp
    rcases usernameCountsLoop_cases (rows.map ReadResult.row) [] with ⟨res, hres⟩ | ⟨e', he'⟩
    · unfold usernameCounts at hp
      rw [hres] at hp
      cases hp
    · unfold usernameCounts at hp
      rw [he'] at hp
      cases hp

/-- Claim C4. For all rows of at least 3 fields, with `counts` returned by
`usernameCounts` and `mapping` by `tweetsPerUser` on the same rows: a key is a
key of `mapping` if and only if `counts[k] >= 2`, and it is the key of some
record sent if and only if `counts[k] >= 2`. -/
theorem mapping_keys_iff_count_ge_two (rows : List Row) (h : ∀ r ∈ rows, 3 ≤ r.length) :
    ∃ counts mapping recs,
      usernameCounts (rows.map ReadResult.row) = .ret (some counts) none ∧
      tweetsPerUser (rows.map ReadResult.row) counts = .ret (some mapping) none ∧
      emittedRecords (rows.map ReadResult.row) = some recs ∧
      (∀ k, k ∈ mapKeys mapping ↔ 2 ≤ countAt counts k) ∧
      ∀ k, (∃ rec ∈ recs, rec.User = k) ↔ 2 ≤ countAt counts k := by
  obtain ⟨counts, mapping, hc, hm, he, hcount, hnd, hget⟩ := run_rows rows h
  have hkeys : ∀ k, k ∈ mapKeys mapping ↔ 2 ≤ countAt counts k := by
    intro k
    rw [mem_mapKeys_iff, hget k, hcount k]
    by_cases h2 : 2 ≤ occurrences rows k
    · simp only [if_pos h2]
      constructor
      · intro _
        omega
      · intro _
        exact ⟨_, rfl⟩
    · simp only [if_neg h2]
      constructor
      · rintro ⟨v, hv⟩
        cases hv
      · intro h'
        omega
  refine ⟨counts, mapping, _, hc, hm, he, hkeys, ?_⟩
  intro k
  constructor
  · rintro ⟨rec, hrec, rfl⟩
    exact (hkeys _).mp ((mem_sortedUsernames mapping _).mp (emitLoop_user_mem _ _ _ hrec))
  · intro hk
    have h2 : 2 ≤ occurrences rows k := by
      have := hcount k
      omega
    have hmem : k ∈ sortedUsernames mapping :=
      (mem_sortedUsernames mapping k).mpr ((hkeys k).mpr hk)
    have hf := emitLoop_filter mapping (sortedUsernames mapping)
      (nodup_sortedUsernames mapping hnd) k
    rw [if_pos hmem] at hf
    have hs : sliceAt mapping k = payloadsOf rows k := by
      simp [sliceAt, hget k, h2]
    have hlen : 0 < (payloadsOf rows k).length := by
      rw [payloadsOf_length]
      omega
    obtain ⟨t, ht⟩ := List.exists_mem_of_length_pos hlen
    have hin : (⟨k, t⟩ : Record) ∈
        (emitLoop mapping (sortedUsernames mapping)).filter (fun rec => decide (rec.User = k)) := by
      rw [hf, hs]
      exact List.mem_map.mpr ⟨t, ht, rfl⟩
    exact ⟨⟨k, t⟩, (List.mem_filter.mp hin).1, rfl⟩

theorem mapping_keys_iff_count_ge_two_witness :
    (∀ r ∈ [[[0], [1], [5, 6]], [[0], [2], [7]], [[0], [1], [8]]], 3 ≤ List.length r) ∧
    ∃ counts mapping recs,
      usernameCounts
        ([[[0], [1], [5, 6]], [[0], [2], [7]], [[0], [1], [8]]].map ReadResult.row) =
          .ret (some counts) none ∧
      tweetsPerUser
        ([[[0], [1], [5, 6]], [[0], [2], [7]], [[0], [1], [8]]].map ReadResult.row) counts =
          .ret (some mapping) none ∧
      emittedRecords
        ([[[0], [1], [5, 6]], [[0], [2], [7]], [[0], [1], [8]]].map ReadResult.row) =
          some recs ∧
      (∀ k, k ∈ mapKeys mapping ↔ 2 ≤ countAt counts k) ∧
      ∀ k, (∃ rec ∈ recs, rec.User = k) ↔ 2 ≤ countAt counts k :=
  ⟨by decide, mapping_keys_iff_count_ge_two _ (by decide)⟩

/-- Claim C5. For all rows of at least 3 fields, the keys of the records sent
by the run are in non-decreasing byte-wise lexicographic order, and the
records of one key are adjacent: when the records at positions `i ≤ m ≤ j`
exist and those at `i` and `j` have the same key, the one at `m` has it too. -/
theorem emitted_keys_sorted_contiguous (rows : List Row) (h : ∀ r ∈ rows, 3 ≤ r.length) :
    ∃ recs, emittedRecords (rows.map ReadResult.row) = some recs ∧
      (recs.map Record.User).Sorted (· ≤ ·) ∧
      ∀ i m j : Nat, i ≤ m → m ≤ j → ∀ a b c : Record, recs[i]? = some a → recs[m]? = some b →
        recs[j]? = some c → a.User = c.User → b.User = a.User := by
  obtain ⟨counts, mapping, _, _, he, _, _, _⟩ := run_rows rows h
  have hs := emitLoop_sorted mapping (sortedUsernames mapping) (sortStrings_sorted _)
  refine ⟨_, he, hs, ?_⟩
  intro i m j him hmj a b c ha hb hc hac
  exact sorted_block _ hs i m j him hmj a.User b.User c.User
    (by rw [List.getElem?_map, ha]; rfl) (by rw [List.getElem?_map, hb]; rfl)
    (by rw [List.getElem?_map, hc]; rfl) hac

theorem emitted_keys_sorted_contiguous_witness :
    (∀ r ∈ [[[0], [2], [5, 6]], [[0], [1], [7]], [[0], [2], [8]], [[0], [1], [9]]],
      3 ≤ List.length r) ∧
    ∃ recs,
      emittedRecords
        ([[[0], [2], [5, 6]], [[0], [1], [7]], [[0], [2], [8]], [[0], [1], [9]]].map
          ReadResult.row) = some recs ∧
      (recs.map Record.User).Sorted (· ≤ ·) ∧
      ∀ i m j : Nat, i ≤ m → m ≤ j → ∀ a b c : Record, recs[i]? = some a → recs[m]? = some b →
        recs[j]? = some c → a.User = c.User → b.User = a.User :=
  ⟨by decide, emitted_keys_sorted_contiguous _ (by decide)⟩

/-- Claim C6. For all rows of at least 3 fields and every key `k` that occurs
at least twice, the bodies of the records sent whose key is `k`, in sending
order, are the last fields of the rows whose field 1 is `k`, in input order. -/
theorem emitted_bodies_in_input_order (rows : List Row) (h : ∀ r ∈ rows, 3 ≤ r.length)
    (k : GoString) (hk : 2 ≤ occurrences rows k) :
    ∃ recs, emittedRecords (rows.map ReadResult.row) = some recs ∧
      (recs.filter (fun rec => decide (rec.User = k))).map Record.Body = payloadsOf rows k := by
  obtain ⟨counts, mapping, _, _, he, _, hnd, hget⟩ := run_rows rows h
  refine ⟨_, he, ?_⟩
  have hmem : k ∈ sortedUsernames mapping := by
    rw [mem_sortedUsernames, mem_mapKeys_iff, hget k, if_pos hk]
    exact ⟨_, rfl⟩
  rw [emitLoop_filter mapping _ (nodup_sortedUsernames mapping hnd) k, if_pos hmem]
  have hs : sliceAt mapping k = payloadsOf rows k := by
    simp [sliceAt, hget k, hk]
  rw [hs, List.map_map]
  exact List.map_id _

theorem emitted_bodies_in_input_order_witness :
    (∀ r ∈ [[[0], [2], [5, 6]], [[0], [1], [7]], [[0], [2], [8]], [[0], [1], [9]]],
      3 ≤ List.length r) ∧
    2 ≤ occurrences [[[0], [2], [5, 6]], [[0], [1], [7]], [[0], [2], [8]], [[0], [1], [9]]] [2] ∧
    ∃ recs,
      emittedRecords
        ([[[0], [2], [5, 6]], [[0], [1], [7]], [[0], [2], [8]], [[0], [1], [9]]].map
          ReadResult.row) = some recs ∧
      (recs.filter (fun rec => decide (rec.User = [2]))).map Record.Body =
        payloadsOf [[[0], [2], [5, 6]], [[0], [1], [7]], [[0], [2], [8]], [[0], [1], [9]]] [2] :=
  ⟨by decide, by decide, emitted_bodies_in_input_order _ (by decide) [2] (by decide)⟩

/-- Claim C7. For all rows of at least 3 fields, the records sent are a
permutation of the (field 1, last field) pairs of the rows whose key occurs at
least twice, each such row giving exactly one pair. -/
theorem emitted_perm_retained (rows : List Row) (h : ∀ r ∈ rows, 3 ≤ r.length) :
    ∃ recs, emittedRecords (rows.map ReadResult.row) = some recs ∧
      recs.Perm ((retainedRows rows).filterMap recordOf) ∧
      ((retainedRows rows).filterMap recordOf).length = (retainedRows rows).length := by
  obtain ⟨recs, he, hp⟩ := emitted_perm rows h
  refine ⟨recs, he, hp, recordOf_length _ ?_⟩
  intro r hr
  have := h r (retainedRows_sublist rows r hr)
  omega

theorem emitted_perm_retained_witness :
    (∀ r ∈ [[[0], [2], [5]], [[0], [1], [7]], [[0], [2], [5]], [[0], [3], [9]]],
      3 ≤ List.length r) ∧
    ∃ recs,
      emittedRecords
        ([[[0], [2], [5]], [[0], [1], [7]], [[0], [2], [5]], [[0], [3], [9]]].map
          ReadResult.row) = some recs ∧
      recs.Perm
        ((retainedRows [[[0], [2], [5]], [[0], [1], [7]], [[0], [2], [5]], [[0], [3], [9]]]).filterMap
          recordOf) ∧
      ((retainedRows [[[0], [2], [5]], [[0], [1], [7]], [[0], [2], [5]], [[0], [3], [9]]]).filterMap
          recordOf).length =
        (retainedRows [[[0], [2], [5]], [[0], [1], [7]], [[0], [2], [5]], [[0], [3], [9]]]).length :=
  ⟨by decide, emitted_perm_retained _ (by decide)⟩

/-- Claim C8. For all rows of at least 3 fields, the number of records sent by
the run is the number of rows whose key (field 1) occurs in at least 2 rows. -/
theorem emitted_length_eq_retained (rows : List Row) (h : ∀ r ∈ rows, 3 ≤ r.length) :
    ∃ recs, emittedRecords (rows.map ReadResult.row) = some recs ∧
      recs.length = (retainedRows rows).length := by
  obtain ⟨recs, he, hp⟩ := emitted_perm rows h
  refine ⟨recs, he, ?_⟩
  rw [hp.length_eq]
  refine recordOf_length _ ?_
  intro r hr
  have := h r (retainedRows_sublist rows r hr)
  omega

theorem emitted_length_eq_retained_witness :
    (∀ r ∈ [[[0], [2], [5]], [[0], [1], [7]], [[0], [2], [6]], [[0], [3], [9]]],
      3 ≤ List.length r) ∧
    ∃ recs,
      emittedRecords
        ([[[0], [2], [5]], [[0], [1], [7]], [[0], [2], [6]], [[0], [3], [9]]].map
          ReadResult.row) = some recs ∧
      recs.length =
        (retainedRows [[[0], [2], [5]], [[0], [1], [7]], [[0], [2], [6]], [[0], [3], [9]]]).length :=
  ⟨by decide, emitted_length_eq_retained _ (by decide)⟩

/-- Claim C9. For every input that contains a row with fewer than 3 fields, at
any position, `usernameCounts` returns an error and a nil map; `main`, once the
input is open, stops right after the counting pass with that error; in no case
is `tweetsPerUser` called, the output created, or a record sent. -/
theorem main_aborts_on_short_row (env : Env) (file : List ReadResult) (r : Row)
    (hr : ReadResult.row r ∈ file) (hlen : r.length < 3) :
    ∃ e, usernameCounts file = .ret none (some e) ∧
      (env.openErr = none → main env file = [Event.countPass, Event.die e]) ∧
      Event.groupPass ∉ main env file ∧
      Event.createOutput ∉ main env file ∧
      (∀ rec, Event.send rec ∉ main env file) ∧
      emittedRecords file = none := by
  obtain ⟨e, he⟩ := usernameCounts_short_row file r hr hlen
  refine ⟨e, he, ?_, ?_, ?_, ?_, ?_⟩
  · intro ho
    simp only [main, ho, he]
  · cases ho : env.openErr <;> simp [main, ho, he]
  · cases ho : env.openErr <;> simp [main, ho, he]
  · intro rec
    cases ho : env.openErr <;> simp [main, ho, he]
  · simp only [emittedRecords, he]

theorem main_aborts_on_short_row_witness :
    ReadResult.row [[2], [1]] ∈ [ReadResult.row [[0], [1]], ReadResult.row [[2], [1]]] ∧
    List.length [[2], [1]] < 3 ∧
    ∃ e,
      usernameCounts
        [ReadResult.row [[0], [1]], ReadResult.row [[2], [1]]] =
          .ret none (some e) ∧
      ((⟨none, none, none⟩ : Env).openErr = none →
        main ⟨none, none, none⟩
          [ReadResult.row [[0], [1]], ReadResult.row [[2], [1]]] =
            [Event.countPass, Event.die e]) ∧
      Event.groupPass ∉ main ⟨none, none, none⟩
        [ReadResult.row [[0], [1]], ReadResult.row [[2], [1]]] ∧
      Event.createOutput ∉ main ⟨none, none, none⟩
        [ReadResult.row [[0], [1]], ReadResult.row [[2], [1]]] ∧
      (∀ rec, Event.send rec ∉ main ⟨none, none, none⟩
        [ReadResult.row [[0], [1]], ReadResult.row [[2], [1]]]) ∧
      emittedRecords
        [ReadResult.row [[0], [1]], ReadResult.row [[2], [1]]] =
          none :=
  ⟨by decide, by decide, main_aborts_on_short_row _ _ [[2], [1]] (by decide) (by decide)⟩

/-- Claim C10, as amended. `tweetsPerUser` has no column-count check: it fails
fast on read errors only. For every counts map and all rows of at least 2
fields, rows of exactly 2 fields included, it returns a mapping and no error;
and when the reader reports a read error after such rows, it returns that
error and a nil mapping. -/
theorem tweetsPerUser_fails_only_on_read_error (counts : GoMap Int) (rows : List Row)
    (h : ∀ r ∈ rows, 2 ≤ r.length) :
    (∃ mapping, tweetsPerUser (rows.map ReadResult.row) counts = .ret (some mapping) none) ∧
      ∀ e rest,
        tweetsPerUser (rows.map ReadResult.row ++ ReadResult.fail e :: rest) counts =
          .ret none (some e) := by
  constructor
  · obtain ⟨mapping, hm, _, _⟩ := tweetsPerUser_rows counts rows h
    exact ⟨mapping, hm⟩
  · intro e rest
    obtain ⟨indices, buffer, hrun, _, _, _⟩ :=
      groupLoop_rows counts rows h [] [] (fun _ => []) (by simp [mapKeys])
        (fun k => by simp [sliceAt, mapGet, sliceViews])
    have happ := groupLoop_append counts (rows.map ReadResult.row) (ReadResult.fail e :: rest)
      [] indices [] buffer hrun
    simp only [tweetsPerUser, happ, groupLoop]

theorem tweetsPerUser_fails_only_on_read_error_witness :
    (∀ r ∈ [[[120], [98]], [[121], [98]]], 2 ≤ List.length r) ∧
    (∃ mapping,
      tweetsPerUser ([[[120], [98]], [[121], [98]]].map ReadResult.row) [([98], 2)] =
        .ret (some mapping) none) ∧
    ∀ e rest,
      tweetsPerUser
        ([[[120], [98]], [[121], [98]]].map ReadResult.row ++ ReadResult.fail e :: rest)
        [([98], 2)] = .ret none (some e) :=
  ⟨by decide, tweetsPerUser_fails_only_on_read_error _ _ (by decide)⟩

/-- Claim C10 as stated fails: on two rows of 2 fields each, with a count of 2
for their key, `tweetsPerUser` returns a mapping and no error. -/
theorem tweetsPerUser_short_row_returns_mapping :
    ([[120], [98]] ∈ [[[120], [98]], [[121], [98]]] ∧ List.length [[120], [98]] < 3) ∧
    tweetsPerUser ([[[120], [98]], [[121], [98]]].map ReadResult.row) [([98], 2)] =
      .ret (some [([98], [[98], [98]])]) none ∧
    ¬ ∃ e, tweetsPerUser ([[[120], [98]], [[121], [98]]].map ReadResult.row) [([98], 2)] =
      .ret none (some e) := by
  refine ⟨⟨by decide, by decide⟩, by decide, ?_⟩
  rintro ⟨e, he⟩
  have h : tweetsPerUser ([[[120], [98]], [[121], [98]]].map ReadResult.row) [([98], 2)] =
      .ret (some [([98], [[98], [98]])]) none := by decide
  rw [h] at he
  cases he

/-- Claim C11. The records sent do not depend on map iteration order. For
every mapping and any two enumerations of its keys, the sorted username list
and the record sequence of the producer loop are the same; and for any two
choices of the orders in which the `range` over `indices` and the `range` over
`mapping` visit their maps, two runs on the same input send the same records
in the same order, which are those of `emittedRecords`. -/
theorem emitted_independent_of_range_order
    (v₁ v₂ : GoMap (List Nat) → GoMap (List Nat)) (k₁ k₂ : List GoString → List GoString)
    (hv₁ : ∀ m, (v₁ m).Perm m) (hv₂ : ∀ m, (v₂ m).Perm m)
    (hk₁ : ∀ ks, (k₁ ks).Perm ks) (hk₂ : ∀ ks, (k₂ ks).Perm ks) :
    (∀ (mapping : GoMap (List Bytes)) (ks₁ ks₂ : List GoString),
      ks₁.Perm (mapKeys mapping) → ks₂.Perm (mapKeys mapping) →
        sortStrings ks₁ = sortStrings ks₂ ∧
        sortStrings ks₁ = sortedUsernames mapping ∧
        emitLoop mapping (sortStrings ks₁) = emitLoop mapping (sortStrings ks₂)) ∧
      ∀ file, emittedRecordsIn v₁ k₁ file = emittedRecordsIn v₂ k₂ file ∧
        emittedRecordsIn v₁ k₁ file = emittedRecords file := by
  refine ⟨?_, ?_⟩
  · intro mapping ks₁ ks₂ h₁ h₂
    have e := sortStrings_eq_of_perm ks₁ ks₂ (h₁.trans h₂.symm)
    exact ⟨e, sortStrings_eq_of_perm ks₁ (mapKeys mapping) h₁, by rw [e]⟩
  · intro file
    refine ⟨emittedRecordsIn_eq v₁ v₂ k₁ k₂ hv₁ hv₂ hk₁ hk₂ file, ?_⟩
    exact emittedRecordsIn_eq v₁ id k₁ id hv₁ (fun m => List.Perm.refl m) hk₁
      (fun ks => List.Perm.refl ks) file

theorem emitted_independent_of_range_order_witness :
    (∀ m : GoMap (List Nat), (List.reverse m).Perm m) ∧
    (∀ ks : List GoString, (List.reverse ks).Perm ks) ∧
    (∀ (mapping : GoMap (List Bytes)) (ks₁ ks₂ : List GoString),
      ks₁.Perm (mapKeys mapping) → ks₂.Perm (mapKeys mapping) →
        sortStrings ks₁ = sortStrings ks₂ ∧
        sortStrings ks₁ = sortedUsernames mapping ∧
        emitLoop mapping (sortStrings ks₁) = emitLoop mapping (sortStrings ks₂)) ∧
      ∀ file, emittedRecordsIn List.reverse List.reverse file = emittedRecordsIn id id file ∧
        emittedRecordsIn List.reverse List.reverse file = emittedRecords file :=
  ⟨fun m => List.reverse_perm m, fun ks => List.reverse_perm ks,
    emitted_independent_of_range_order List.reverse id List.reverse id
      (fun m => List.reverse_perm m) (fun m => List.Perm.refl m)
      (fun ks => List.reverse_perm ks) (fun ks => List.Perm.refl ks)⟩

/-- Claim C12. For every grouped mapping (a map, so with distinct keys), the
records of the producer loop of `main` are the reference sequence: the keys in
ascending order without repetition, with one record per view of the key in
stored order; a key whose sequence is empty gives no record. -/
theorem emitLoop_eq_reference (m : GoMap (List Bytes)) (h : (mapKeys m).Nodup) :
    emitLoop m (sortedUsernames m) = referenceRecords m ∧
      ∀ k, sliceAt m k = [] → ∀ rec ∈ emitLoop m (sortedUsernames m), rec.User ≠ k := by
  refine ⟨?_, ?_⟩
  · rw [emitLoop_eq_flatMap, sortedUsernames_eq_sort m h]
    rfl
  · intro k hk rec hrec hu
    have hf := emitLoop_filter m (sortedUsernames m) (nodup_sortedUsernames m h) k
    rw [hk] at hf
    have hin : rec ∈ (emitLoop m (sortedUsernames m)).filter
        (fun rec => decide (rec.User = k)) :=
      List.mem_filter.mpr ⟨hrec, by simpa using hu⟩
    rw [hf] at hin
    simp at hin

theorem emitLoop_eq_reference_witness :
    (mapKeys [([2], [[5], [6]]), ([1], []), ([3], [[7]])]).Nodup ∧
    emitLoop [([2], [[5], [6]]), ([1], []), ([3], [[7]])]
        (sortedUsernames [([2], [[5], [6]]), ([1], []), ([3], [[7]])]) =
      referenceRecords [([2], [[5], [6]]), ([1], []), ([3], [[7]])] ∧
    ∀ k, sliceAt [([2], [[5], [6]]), ([1], []), ([3], [[7]])] k = [] →
      ∀ rec ∈ emitLoop [([2], [[5], [6]]), ([1], []), ([3], [[7]])]
        (sortedUsernames [([2], [[5], [6]]), ([1], []), ([3], [[7]])]), rec.User ≠ k :=
  ⟨by decide, emitLoop_eq_reference _ (by decide)⟩

/-- Claim C13. For three rows of at least 3 fields whose keys are alice, bob,
alice and whose payloads are hi, yo, bye: `usernameCounts` returns
`{alice: 2, bob: 1}`, `tweetsPerUser` keeps alice only, and the records sent are
(alice, hi) then (alice, bye), none of them with key bob. -/
theorem example_alice_bob (r₁ r₂ r₃ : Row)
    (h₁ : 3 ≤ r₁.length) (h₂ : 3 ≤ r₂.length) (h₃ : 3 ≤ r₃.length)
    (k₁ : r₁[1]? = some alice) (k₂ : r₂[1]? = some bob) (k₃ : r₃[1]? = some alice)
    (p₁ : r₁.getLast? = some hi) (p₂ : r₂.getLast? = some yo) (p₃ : r₃.getLast? = some bye) :
    usernameCounts [.row r₁, .row r₂, .row r₃] = .ret (some [(alice, 2), (bob, 1)]) none ∧
      tweetsPerUser [.row r₁, .row r₂, .row r₃] [(alice, 2), (bob, 1)] =
        .ret (some [(alice, [hi, bye])]) none ∧
      emittedRecords [.row r₁, .row r₂, .row r₃] = some [⟨alice, hi⟩, ⟨alice, bye⟩] ∧
      ∀ rec ∈ ([⟨alice, hi⟩, ⟨alice, bye⟩] : List Record), rec.User ≠ bob := by
  have _ := p₂
  have n₁ : ¬ r₁.length < 3 := by omega
  have n₂ : ¬ r₂.length < 3 := by omega
  have n₃ : ¬ r₃.length < 3 := by omega
  have e₁ : r₁[r₁.length - 1]? = some hi := by rw [← List.getLast?_eq_getElem?]; exact p₁
  have e₃ : r₃[r₃.length - 1]? = some bye := by rw [← List.getLast?_eq_getElem?]; exact p₃
  have hcounts : usernameCounts [.row r₁, .row r₂, .row r₃] =
      .ret (some [(alice, 2), (bob, 1)]) none := by
    simp only [usernameCounts, usernameCountsLoop, n₁, n₂, n₃, k₁, k₂, k₃, if_false]
    decide
  have ca : ¬ countAt [(alice, 2), (bob, 1)] alice < 2 := by decide
  have cb : countAt [(alice, 2), (bob, 1)] bob < 2 := by decide
  have hgroup : tweetsPerUser [.row r₁, .row r₂, .row r₃] [(alice, 2), (bob, 1)] =
      .ret (some [(alice, [hi, bye])]) none := by
    simp only [tweetsPerUser, groupLoop, k₁, k₂, k₃, e₁, e₃, ca, cb, if_false, if_true]
    decide
  refine ⟨hcounts, hgroup, ?_, by decide⟩
  simp only [emittedRecords, hcounts, Option.getD_some, hgroup]
  decide

theorem example_alice_bob_witness :
    (3 ≤ List.length [[1], alice, hi] ∧ 3 ≤ List.length [[2], bob, yo] ∧
      3 ≤ List.length [[3], alice, bye]) ∧
    ([[1], alice, hi][1]? = some alice ∧ [[2], bob, yo][1]? = some bob ∧
      [[3], alice, bye][1]? = some alice) ∧
    (List.getLast? [[1], alice, hi] = some hi ∧ List.getLast? [[2], bob, yo] = some yo ∧
      List.getLast? [[3], alice, bye] = some bye) ∧
    usernameCounts [.row [[1], alice, hi], .row [[2], bob, yo], .row [[3], alice, bye]] =
      .ret (some [(alice, 2), (bob, 1)]) none ∧
    tweetsPerUser [.row [[1], alice, hi], .row [[2], bob, yo], .row [[3], alice, bye]]
        [(alice, 2), (bob, 1)] = .ret (some [(alice, [hi, bye])]) none ∧
    emittedRecords [.row [[1], alice, hi], .row [[2], bob, yo], .row [[3], alice, bye]] =
      some [⟨alice, hi⟩, ⟨alice, bye⟩] ∧
    ∀ rec ∈ ([⟨alice, hi⟩, ⟨alice, bye⟩] : List Record), rec.User ≠ bob :=
  ⟨by decide, by decide, by decide,
    example_alice_bob [[1], alice, hi] [[2], bob, yo] [[3], alice, bye]
      (by decide) (by decide) (by decide) (by decide) (by decide) (by decide)
      (by decide) (by decide) (by decide)⟩

/-- Claim C14. For the empty input, `usernameCounts` returns an empty map and no
error, `tweetsPerUser` returns an empty mapping and no error, the sorted
username list is empty, no record is sent, and `main` closes the channel right
after creating the output, without a send. -/
theorem example_empty_input :
    usernameCounts [] = .ret (some []) none ∧
      tweetsPerUser [] [] = .ret (some []) none ∧
      sortedUsernames [] = [] ∧
      emitLoop [] (sortedUsernames []) = [] ∧
      emittedRecords [] = some [] ∧
      main ⟨none, none, none⟩ [] =
        [Event.countPass, Event.groupPass, Event.createOutput, Event.closeRecords] := by
  decide

/-- Claim C16. For every counts map and all rows of at least 3 fields, the
buffer built by `tweetsPerUser` is the concatenation, in input order, of the
last fields of the rows whose key has a count of at least 2; the pairs recorded
for those rows, in the order they are recorded, are the ones stored in
`indices`, and they tile the buffer: the first start is 0, each start is the
previous end, every end minus its start is the length of that payload, and the
last end is the length of the buffer. -/
theorem buffer_tiled_by_pairs (counts : GoMap Int) (rows : List Row)
    (h : ∀ r ∈ rows, 3 ≤ r.length) :
    ∃ indices buffer log,
      groupLoop counts (rows.map ReadResult.row) [] [] = .eof indices buffer ∧
      groupLoopLog counts (rows.map ReadResult.row) [] [] [] = some (indices, buffer, log) ∧
      (∀ k, sliceAt indices k = pairsOfKey log k) ∧
      buffer = (keptPayloads counts rows).flatten ∧
      (log.map Prod.snd).map (fun p => p.2 - p.1) = (keptPayloads counts rows).map List.length ∧
      (∀ p ∈ log.map Prod.snd, p.1 ≤ p.2) ∧
      (∀ p, (log.map Prod.snd).head? = some p → p.1 = 0) ∧
      List.Chain' (fun a b : Nat × Nat => b.1 = a.2) (log.map Prod.snd) ∧
      ∀ p, (log.map Prod.snd).getLast? = some p → p.2 = buffer.length := by
  obtain ⟨indices, log, hrun, hlog, hpairs, hlink⟩ :=
    groupLoopLog_rows counts rows (fun r hr => by have := h r hr; omega) [] [] []
      (fun k => by simp [sliceAt, mapGet, pairsOfKey])
  simp only [List.nil_append, List.map_nil, List.length_nil] at hrun hlog hpairs
  refine ⟨indices, _, log, hrun, hlog, hlink, rfl, ?_, ?_, ?_, ?_, ?_⟩
  · rw [hpairs]
    exact (pairsFrom_lengths 0 _).1
  · rw [hpairs]
    exact (pairsFrom_lengths 0 _).2
  · rw [hpairs]
    exact fun p hp => pairsFrom_head 0 _ p hp
  · rw [hpairs]
    exact pairsFrom_chain 0 _
  · rw [hpairs]
    intro p hp
    rw [pairsFrom_last 0 _ p hp, Nat.zero_add]

theorem buffer_tiled_by_pairs_witness :
    (∀ r ∈ [[[0], [1], [5, 6]], [[0], [2], [7]], [[0], [1], [8]]], 3 ≤ List.length r) ∧
    ∃ indices buffer log,
      groupLoop [([1], 2), ([2], 2)]
        ([[[0], [1], [5, 6]], [[0], [2], [7]], [[0], [1], [8]]].map ReadResult.row) [] [] =
          .eof indices buffer ∧
      groupLoopLog [([1], 2), ([2], 2)]
        ([[[0], [1], [5, 6]], [[0], [2], [7]], [[0], [1], [8]]].map ReadResult.row) [] [] [] =
          some (indices, buffer, log) ∧
      (∀ k, sliceAt indices k = pairsOfKey log k) ∧
      buffer = (keptPayloads [([1], 2), ([2], 2)]
        [[[0], [1], [5, 6]], [[0], [2], [7]], [[0], [1], [8]]]).flatten ∧
      (log.map Prod.snd).map (fun p => p.2 - p.1) =
        (keptPayloads [([1], 2), ([2], 2)]
          [[[0], [1], [5, 6]], [[0], [2], [7]], [[0], [1], [8]]]).map List.length ∧
      (∀ p ∈ log.map Prod.snd, p.1 ≤ p.2) ∧
      (∀ p, (log.map Prod.snd).head? = some p → p.1 = 0) ∧
      List.Chain' (fun a b : Nat × Nat => b.1 = a.2) (log.map Prod.snd) ∧
      ∀ p, (log.map Prod.snd).getLast? = some p → p.2 = buffer.length :=
  ⟨by decide, buffer_tiled_by_pairs _ _ (by decide)⟩

/-- Claim C17. For all rows of at least 3 fields, with `counts` returned by
`usernameCounts` and `mapping` by `tweetsPerUser` on the same rows: every key
of `mapping` has exactly `counts[k]` views, and every key with
`counts[k] >= 2` is a key of `mapping` with a non-empty sequence. -/
theorem mapping_views_eq_counts (rows : List Row) (h : ∀ r ∈ rows, 3 ≤ r.length) :
    ∃ counts mapping,
      usernameCounts (rows.map ReadResult.row) = .ret (some counts) none ∧
      tweetsPerUser (rows.map ReadResult.row) counts = .ret (some mapping) none ∧
      (∀ k ∈ mapKeys mapping, ((sliceAt mapping k).length : Int) = countAt counts k) ∧
      ∀ k, 2 ≤ countAt counts k → k ∈ mapKeys mapping ∧ sliceAt mapping k ≠ [] := by
  obtain ⟨counts, mapping, hc, hm, _, hcount, _, hget⟩ := run_rows rows h
  have hslice : ∀ k, 2 ≤ occurrences rows k → sliceAt mapping k = payloadsOf rows k := by
    intro k hk
    simp [sliceAt, hget k, hk]
  refine ⟨counts, mapping, hc, hm, ?_, ?_⟩
  · intro k hk
    have h2 : 2 ≤ occurrences rows k := by
      by_contra hn
      have hnone : mapGet mapping k = none := by rw [hget k, if_neg hn]
      exact (mapGet_eq_none_iff mapping k).mp hnone hk
    rw [hslice k h2, payloadsOf_length, hcount k]
  · intro k hk
    have h2 : 2 ≤ occurrences rows k := by
      have := hcount k
      omega
    refine ⟨?_, ?_⟩
    · rw [mem_mapKeys_iff, hget k, if_pos h2]
      exact ⟨_, rfl⟩
    · intro hnil
      have hlen := payloadsOf_length rows k
      rw [← hslice k h2, hnil] at hlen
      simp at hlen
      omega

theorem mapping_views_eq_counts_witness :
    (∀ r ∈ [[[0], [1], [5, 6]], [[0], [2], [7]], [[0], [1], [8]]], 3 ≤ List.length r) ∧
    ∃ counts mapping,
      usernameCounts
        ([[[0], [1], [5, 6]], [[0], [2], [7]], [[0], [1], [8]]].map ReadResult.row) =
          .ret (some counts) none ∧
      tweetsPerUser
        ([[[0], [1], [5, 6]], [[0], [2], [7]], [[0], [1], [8]]].map ReadResult.row) counts =
          .ret (some mapping) none ∧
      (∀ k ∈ mapKeys mapping, ((sliceAt mapping k).length : Int) = countAt counts k) ∧
      ∀ k, 2 ≤ countAt counts k → k ∈ mapKeys mapping ∧ sliceAt mapping k ≠ [] :=
  ⟨by decide, mapping_views_eq_counts _ (by decide)⟩

/-- Claim C18. For every counts map and every input on which the first loop of
`tweetsPerUser` reaches `io.EOF`: every list stored in `indices` has even
length, every index `i` the slicing loop reads has an `is[i+1]` with
`is[i] ≤ is[i+1] ≤ len(fullBytes)`, and the slicing loop ends without a panic. -/
theorem slicing_loop_in_range (counts : GoMap Int) (file : List ReadResult)
    (indices : GoMap (List Nat)) (fullBytes : Bytes)
    (h : groupLoop counts file [] [] = .eof indices fullBytes) :
    (∀ k is, (k, is) ∈ indices → Even is.length ∧ pairsInRange fullBytes.length is) ∧
      (∃ res, sliceLoop fullBytes indices [] = some res) ∧
      ∃ res, tweetsPerUser file counts = .ret (some res) none := by
  obtain ⟨hnd, hinv⟩ := groupLoop_inv counts file [] indices [] fullBytes (by simp [mapKeys])
    (fun k => ⟨[], by simp [sliceAt, mapGet, sliceViews]⟩) h
  obtain ⟨res, hres, _, _⟩ :=
    sliceLoop_after_groupLoop counts file indices fullBytes h indices (List.Perm.refl _)
  refine ⟨?_, ⟨res, hres⟩, ⟨res, by simp only [tweetsPerUser, h, hres]⟩⟩
  intro k is hmem
  have hget : mapGet indices k = some is := (mapGet_eq_some_iff indices hnd k is).mpr hmem
  obtain ⟨vs, hvs⟩ := hinv k
  simp only [sliceAt, hget, Option.getD_some] at hvs
  exact sliceViews_inRange fullBytes is vs hvs

theorem slicing_loop_in_range_witness :
    groupLoop [([1], 2)]
        [.row [[0], [1], [5, 6]], .row [[0], [2], [7]], .row [[0], [1], [8]]] [] [] =
      .eof [([1], [0, 2, 2, 3])] [5, 6, 8] ∧
    (∀ k is, (k, is) ∈ ([([1], [0, 2, 2, 3])] : GoMap (List Nat)) →
      Even is.length ∧ pairsInRange (List.length [5, 6, 8]) is) ∧
    (∃ res, sliceLoop [5, 6, 8] [([1], [0, 2, 2, 3])] [] = some res) ∧
    ∃ res, tweetsPerUser
      [.row [[0], [1], [5, 6]], .row [[0], [2], [7]], .row [[0], [1], [8]]] [([1], 2)] =
        .ret (some res) none :=
  ⟨by decide, slicing_loop_in_range [([1], 2)]
    [.row [[0], [1], [5, 6]], .row [[0], [2], [7]], .row [[0], [1], [8]]]
    [([1], [0, 2, 2, 3])] [5, 6, 8] (by decide)⟩

/-- Claim C19. For every input on which `usernameCounts` succeeds,
`tweetsPerUser` on the same input with the returned counts finds `row[1]` and
`row[len(row)-1]` in every row and returns a mapping and no error. It has no
column-count check of its own: on a row of one field it panics, whatever the
counts. -/
theorem tweetsPerUser_safe_after_counts (file : List ReadResult) (counts : GoMap Int)
    (h : usernameCounts file = .ret (some counts) none) :
    (∃ mapping, tweetsPerUser file counts = .ret (some mapping) none) ∧
      (∀ r, ReadResult.row r ∈ file →
        ∃ user msg, r[1]? = some user ∧ r[r.length - 1]? = some msg) ∧
      ∀ (counts' : GoMap Int) (field : GoString),
        tweetsPerUser [ReadResult.row [field]] counts' = .panic := by
  obtain ⟨rows, hfile, hall⟩ := usernameCountsLoop_ok_file file [] counts h
  refine ⟨?_, ?_, ?_⟩
  · obtain ⟨mapping, hm, _, _⟩ :=
      tweetsPerUser_rows counts rows (fun r hr => by have := hall r hr; omega)
    exact ⟨mapping, by rw [hfile]; exact hm⟩
  · intro r hr
    rw [hfile, List.mem_map] at hr
    obtain ⟨r', hr', e⟩ := hr
    cases e
    have hlen := hall r hr'
    have h1 : 1 < r.length := by omega
    have hl : r.length - 1 < r.length := by omega
    exact ⟨r[1], r[r.length - 1], List.getElem?_eq_getElem h1, List.getElem?_eq_getElem hl⟩
  · intro counts' field
    simp [tweetsPerUser, groupLoop]

theorem tweetsPerUser_safe_after_counts_witness :
    usernameCounts [.row [[0], [1], [5, 6]], .row [[0], [2], [7]], .row [[0], [1], [8]]] =
      .ret (some [([1], 2), ([2], 1)]) none ∧
    (∃ mapping,
      tweetsPerUser [.row [[0], [1], [5, 6]], .row [[0], [2], [7]], .row [[0], [1], [8]]]
        [([1], 2), ([2], 1)] = .ret (some mapping) none) ∧
    (∀ r, ReadResult.row r ∈
        [ReadResult.row [[0], [1], [5, 6]], .row [[0], [2], [7]], .row [[0], [1], [8]]] →
      ∃ user msg, r[1]? = some user ∧ r[r.length - 1]? = some msg) ∧
    ∀ (counts' : GoMap Int) (field : GoString),
      tweetsPerUser [ReadResult.row [field]] counts' = .panic :=
  ⟨by decide, tweetsPerUser_safe_after_counts
    [.row [[0], [1], [5, 6]], .row [[0], [2], [7]], .row [[0], [1], [8]]]
    [([1], 2), ([2], 1)] (by decide)⟩

end BuildDb
